import Mathlib

/-!
Verification of the `ogr-rust` Golomb-ruler enumeration core.

This file gives a shallow embedding of the state-transition engine, the
traversal strategies, the Golomb-property verifiers and the ruler↔id
bijection of the `ogr-rust` repository (`src/enumeration/state.rs`,
`src/enumeration/iterators.rs`, `src/enumeration/mod.rs`,
`src/rulers/ruler.rs`, `src/rulers/golomb_ruler.rs`), and proves the
repository's specified properties about them.

Modelling conventions:
* a ruler state `Vec<bool>` becomes `List Bool`;
* the mark integer type `GInt = i128` becomes `Int` (no `i128` arithmetic in
  the modelled paths overflows 128 bits; casts `as usize` are modelled
  explicitly modulo `2^64`);
* code that can panic (index out of bounds, `usize` subtraction overflow,
  shift overflow) is modelled in `Option`, `none` standing for the panic;
* the source's unbounded `while`/iterator loops are modelled with an explicit
  fuel parameter; the fuel used by the facade functions is proved sufficient
  by the theorems below (the runs terminate strictly before exhausting it).
-/

namespace Ogr

/-- Integer type used for marks: `pub(crate) type GInt = i128;`. -/
abbrev GInt := Int

/-- Absolute distance, from `src/rulers/mod.rs`: `GInt::abs(a - b)`. -/
def dist (a b : GInt) : GInt := |a - b|

/-- Truncating cast `i128 -> usize` (64-bit `usize`), i.e. the low 64 bits of
the two's-complement representation. -/
def castUsize (v : Int) : Nat := (v % (2 ^ 64 : Int)).toNat

/-- The `GolombRuler` value type from `src/rulers/golomb_ruler.rs`: an ordered
sequence of marks, excluding the implicit leading mark 0. -/
structure GolombRuler where
  marks : List GInt
deriving DecidableEq, Repr

namespace GolombRuler

/-- `order()`: `self.marks.len() + 1`. -/
def order (r : GolombRuler) : Nat := r.marks.length + 1

/-- `length()`: the last mark, or 0 if the sequence is empty. -/
def length (r : GolombRuler) : GInt :=
  match r.marks.getLast? with
  | none => 0
  | some m => m

end GolombRuler

namespace Ruler

/-- One `HashSet` insertion step of `Ruler::is_golomb_ruler`: reject if the
distance was already seen, otherwise record it.  The `HashSet<GInt>` is
modelled as a `List GInt` used only through membership. -/
def checkInsert (distances : List GInt) (d : GInt) : Option (List GInt) :=
  if d ∈ distances then none else some (d :: distances)

/-- Inner loop of `Ruler::is_golomb_ruler`: for a fixed `lhs`, fold over the
remaining `rhs` elements inserting `dist lhs rhs`. -/
def innerLoop (lhs : GInt) : List GInt → List GInt → Option (List GInt)
  | distances, [] => some distances
  | distances, rhs :: rest =>
    match checkInsert distances (dist lhs rhs) with
    | none => none
    | some d' => innerLoop lhs d' rest

/-- Outer loop of `Ruler::is_golomb_ruler`: for each `lhs`, first insert
`diff = *lhs` (the distance from the implicit 0), then run the inner loop on
the elements after it. -/
def outerLoop : List GInt → List GInt → Option (List GInt)
  | distances, [] => some distances
  | distances, lhs :: rest =>
    match checkInsert distances lhs with
    | none => none
    | some d' =>
      match innerLoop lhs d' rest with
      | none => none
      | some d'' => outerLoop d'' rest

/-- `Ruler::is_golomb_ruler` from `src/rulers/ruler.rs`: verify that a
sequence of integers satisfies the Golomb property, rejecting on the first
repeated pairwise distance (distances from the implicit 0 are the raw
`*lhs` values). -/
def is_golomb_ruler (sequence : List GInt) : Bool :=
  (outerLoop [] sequence).isSome

end Ruler

namespace RulerState

/-- `count_marks`: number of `true` values in the state. -/
def count_marks (s : List Bool) : Nat := s.count true

/-- `total_marks`: `count_marks + 2` (the two implicit endpoint marks). -/
def total_marks (s : List Bool) : Nat := count_marks s + 2

/-- `all`: test if every bool in the state is true. -/
def all (s : List Bool) : Bool := s.all id

/-- `go_left`: append a `false` to the end of the state. -/
def go_left (s : List Bool) : List Bool := s ++ [false]

/-- `back_one_then_right`: `out[self.len() - 1] = true`; set the final bit.
The source indexes `self.len() - 1` and hence panics on an empty state; the
empty case (unreachable from the modelled entry points) returns `[]`. -/
def back_one_then_right : List Bool → List Bool
  | [] => []
  | [_] => [true]
  | b :: rest => b :: back_one_then_right rest

/-- Helper for `backtrack` acting on the reversed state (the source iterates
`(0..self.len()).rev()`, i.e. from the rightmost bit leftward): clear every
leading `true`, then set the first `false` and stop. -/
def btRev : List Bool → List Bool
  | [] => []
  | true :: rest => false :: btRev rest
  | false :: rest => true :: rest

/-- `backtrack`: `0111 -> 1000`; scanning from the rightmost bit backward,
clear every trailing set bit, then set the first cleared bit found. -/
def backtrack (s : List Bool) : List Bool := (btRev s.reverse).reverse

/-- Helper for `add_mark` on the reversed state: set the first cleared bit
scanning from the rightmost end; `none` if every bit is set. -/
def amRev : List Bool → Option (List Bool)
  | [] => none
  | false :: rest => some (true :: rest)
  | true :: rest => (amRev rest).map (true :: ·)

/-- `add_mark`: scanning backwards, set the first zero found; `None` if the
state is full of ones. -/
def add_mark (s : List Bool) : Option (List Bool) :=
  (amRev s.reverse).map List.reverse

/-- Second loop of `jump_back` on the reversed remainder: clear consecutive
ones until the first zero, which is set. -/
def jbRev2 : List Bool → List Bool
  | [] => []
  | true :: rest => false :: jbRev2 rest
  | false :: rest => true :: rest

/-- First loop of `jump_back` on the reversed state: skip (keep) the trailing
zeros, clear the first one encountered, then continue with `jbRev2`. -/
def jbRev : List Bool → List Bool
  | [] => []
  | false :: rest => false :: jbRev rest
  | true :: rest => false :: jbRev2 rest

/-- `jump_back`: with 2 total true values, send `010 -> 100`; clear the
rightmost set bit and the run of consecutive set bits immediately to its
left, then set the first cleared bit found further left. -/
def jump_back (s : List Bool) : List Bool := (jbRev s.reverse).reverse

/-- Helper implementing `self.iter().enumerate().filter_map(...)` of
`to_ruler`: the marks `idx + 1` for every set bit, indices starting at `i`. -/
def interiorMarks : Nat → List Bool → List GInt
  | _, [] => []
  | i, b :: rest =>
    (if b then [((i : Int) + 1)] else []) ++ interiorMarks (i + 1) rest

/-- `to_ruler`: convert a state into a `GolombRuler`; marks `idx + 1` for the
set bits, plus the implied final mark `len + 1`. -/
def to_ruler (s : List Bool) : GolombRuler :=
  ⟨interiorMarks 0 s ++ [((s.length : Int) + 1)]⟩

/-- Accumulation loop of `to_u64`: `int += 2^i` for every set bit, where `i`
counts positions from the rightmost end. -/
def u64Loop : Nat → List Bool → Nat
  | _, [] => 0
  | i, b :: rest => (if b then 2 ^ i else 0) + u64Loop (i + 1) rest

/-- `to_u64`: read the state as a binary numeral, last element least
significant; `None` if the state is longer than 64 bits. -/
def to_u64 (s : List Bool) : Option Nat :=
  if 64 < s.length then none
  else some (u64Loop 0 s.reverse)

/-- `contains`: membership test of an integer position against the state plus
the implicit endpoints 0 and `length = len + 1`.  The casts `as usize` are
truncating; the final branch indexes the vector and panics (`none`) when the
truncated `value - 1` is out of bounds. -/
def contains (s : List Bool) (value : GInt) : Option Bool :=
  let length := s.length + 1
  if value < 0 then some false
  else if value = 0 ∨ value = (length : Int) then some true
  else if length < castUsize value then some false
  else if h : castUsize (value - 1) < s.length then
    some (s.get ⟨castUsize (value - 1), h⟩)
  else none

/-- Loop of the state version of `is_golomb_ruler_order_1`: for each mark `m`
before the last, reject if `contains` already holds the distance to the final
mark.  A panic inside `contains` propagates as `none`. -/
def order1Loop (s : List Bool) (base : GInt) : List GInt → Option Bool
  | [] => some true
  | m :: rest =>
    match contains s (dist m base) with
    | none => none
    | some true => some false
    | some false => order1Loop s base rest

/-- State version of `is_golomb_ruler_order_1` (trait `RulerState` in
`state.rs`): check that no distance from the final mark to an earlier mark is
already a position of the state (interior, 0, or `length`).  `ruler.marks` is
never empty because `to_ruler` always appends the final mark, so the source's
`marks[marks.len() - 1]` never panics here; the `is_empty || len == 1` guard
returns `true`. -/
def is_golomb_ruler_order_1 (s : List Bool) : Option Bool :=
  let ruler := to_ruler s
  match ruler.marks.getLast? with
  | none => none
  | some base =>
    if ruler.marks.length ≤ 1 then some true
    else order1Loop s base ruler.marks.dropLast

/-- `next` from `state.rs`: the exhaustive depth-first transition for a fixed
target `length`.  When the state is shorter than `length - 1` the source
repeatedly applies `go_left`; the resulting state is the original padded with
`false`s.  For `length ≤ 1` the source under- or over-runs (`length - 1`
underflows / the final index panics); those inputs are outside the modelled
entry points, which require `2 ≤ length`. -/
def next (s : List Bool) (length : Nat) : Option (List Bool) :=
  if length - 1 < s.length then none
  else if s.length < length - 1 then
    some (s ++ List.replicate (length - 1 - s.length) false)
  else if s.getD (s.length - 1) false = false then
    some (back_one_then_right s)
  else if all s then none
  else some (backtrack s)

/-- `pruned_propose_next`: propose the next state under cardinality pruning.
If the final bit is cleared: with exactly `order` total marks, finish when
the first `order - 2` bits are all set, otherwise `jump_back`; with fewer
marks, `add_mark`.  If the final bit is set: `backtrack` unless all bits are
set.  The source indexes `self[self.len() - 1]` and panics on an empty
state; that input is outside the modelled entry points. -/
def pruned_propose_next (s : List Bool) (order : Nat) : Option (List Bool) :=
  if s.getD (s.length - 1) false = false then
    if total_marks s = order then
      if (s.take (order - 2)).all id then none
      else some (jump_back s)
    else add_mark s
  else
    if all s then none
    else some (backtrack s)

/-- Fuelled form of the `while next.total_marks() != order` loop inside
`next_pruned`: repeatedly apply `pruned_propose_next` until a state with
exactly `order` total marks appears.  The fuel `2 ^ (length - 1)` supplied by
`next_pruned` is proved sufficient (every proposal strictly increases the
state's numeric value, which is bounded by `2 ^ (length - 1)`). -/
def proposeLoop (order : Nat) : Nat → List Bool → Option (List Bool)
  | 0, _ => none
  | fuel + 1, s =>
    match pruned_propose_next s order with
    | none => none
    | some t =>
      if total_marks t = order then some t
      else proposeLoop order fuel t

/-- `next_pruned`: pad the state with `go_left` up to length `length - 1`,
then propose until a state with exactly `order` total marks is produced. -/
def next_pruned (s : List Bool) (order length : Nat) : Option (List Bool) :=
  if length - 1 < s.length then none
  else if s.length < length - 1 then
    next_pruned (go_left s) order length
  else proposeLoop order (2 ^ (length - 1)) s
termination_by (length - 1) - s.length
decreasing_by simp [go_left]; omega

/-- Fuelled form of the `while !next_pruned.is_golomb_ruler_order_1()` loop of
`next_golomb_depth_1`: skip states failing the depth-1 check. -/
def depth1Loop (order length : Nat) : Nat → List Bool → Option (List Bool)
  | 0, _ => none
  | fuel + 1, s =>
    match is_golomb_ruler_order_1 s with
    | none => none
    | some true => some s
    | some false =>
      match next_pruned s order length with
      | none => none
      | some t => depth1Loop order length fuel t

/-- `next_golomb_depth_1`: advance with `next_pruned`, then keep advancing
while the proposed state fails the depth-1 partial Golomb check. -/
def next_golomb_depth_1 (s : List Bool) (order length : Nat) :
    Option (List Bool) :=
  match next_pruned s order length with
  | none => none
  | some t => depth1Loop order length (2 ^ (length - 1)) t

end RulerState

namespace GolombRuler

/-- `GolombRuler::is_golomb_ruler`: delegate to `Ruler::is_golomb_ruler` on
the mark sequence. -/
def is_golomb_ruler (r : GolombRuler) : Bool :=
  Ruler.is_golomb_ruler r.marks

/-- Loop of `GolombRuler::is_golomb_ruler_order_1`: the `HashSet` of marks is
used only through membership, modelled by list membership. -/
def grOrder1Loop (marks : List GInt) (base : GInt) : List GInt → Bool
  | [] => true
  | m :: rest =>
    if dist m base ∈ marks then false else grOrder1Loop marks base rest

/-- `GolombRuler::is_golomb_ruler_order_1` from `golomb_ruler.rs`: the
exposed depth-1 accessor.  The slice `&self.marks[0..self.marks.len() - 1]`
underflows (panics) when `marks` is empty; that panic is `none`. -/
def is_golomb_ruler_order_1 (r : GolombRuler) : Option Bool :=
  if r.marks.isEmpty then none
  else some (grOrder1Loop r.marks r.length r.marks.dropLast)

/-- One step of the `to_state` fill loop: `state[*m as usize - 1] = true`.
The `usize` subtraction underflows (panics) when the cast of `m` is 0, and
the indexing panics when out of bounds. -/
def setMark (st : List Bool) (m : GInt) : Option (List Bool) :=
  if castUsize m = 0 then none
  else if castUsize m - 1 < st.length then
    some (st.set (castUsize m - 1) true)
  else none

/-- `GolombRuler::to_state`: the interior bit vector of a ruler; all `false`
of length `length - 1`, then set bit `m - 1` for every mark except the
last. -/
def to_state (r : GolombRuler) : Option (List Bool) :=
  if r.order = 1 ∨ r.length = 1 then some []
  else
    r.marks.dropLast.foldlM setMark
      (List.replicate (castUsize (r.length - 1)) false)

/-- One step of the `to_id` accumulation loop: if the state bit at
`(m - 1) as usize` is set then `val += 1 << (m - 1)`.  Out-of-bounds
indexing, a shift amount outside `[0, 64)` and `usize` addition overflow all
panic (`none`). -/
def idStep (st : List Bool) (val : Nat) (m : GInt) : Option Nat :=
  if h : castUsize (m - 1) < st.length then
    if st.get ⟨castUsize (m - 1), h⟩ then
      if m - 1 < 0 ∨ 64 ≤ m - 1 then none
      else if 2 ^ 64 ≤ val + 2 ^ (m - 1).toNat then none
      else some (val + 2 ^ (m - 1).toNat)
    else some val
  else none

/-- `GolombRuler::to_id`: `Some 0` for the empty ruler, `Some 1` for length 1,
`None` for `length > 64`; otherwise the sentinel bit `1 << (length - 1)` plus
one bit per interior mark.  A negative shift (non-positive length on a
non-degenerate ruler) panics. -/
def to_id (r : GolombRuler) : Option Nat :=
  if r.marks = [] then some 0
  else if r.length = 1 then some 1
  else if (64 : Int) < r.length then none
  else if r.length ≤ 0 then none
  else
    match r.to_state with
    | none => none
    | some st =>
      r.marks.dropLast.foldlM (idStep st) (2 ^ (r.length - 1).toNat)

/-- `GolombRuler::from_id` from `state.rs`: id 0 is the empty ruler, id 1 is
`[1]`; otherwise the length is `ilog2 id + 1` and the low `length - 1` bits
of `id` form the interior state. -/
def from_id (id : Nat) : GolombRuler :=
  if id = 0 then ⟨[]⟩
  else if id = 1 then ⟨[1]⟩
  else RulerState.to_ruler ((List.range (Nat.log2 id)).map (fun i => id.testBit i))

end GolombRuler

/-! ## Iterators and enumeration facade (`iterators.rs`, `mod.rs`) -/

/-- `RulerIterator::new(length)`: the pre-state `vec![false; length - 2]`.
For `length < 2` the `usize` subtraction underflows, a panic (`none`). -/
def rulerIteratorNew (length : Nat) : Option (List Bool) :=
  if length < 2 then none else some (List.replicate (length - 2) false)

/-- `GolombRulerPrunedIterator::new(order, length)`: the same pre-state
`vec![false; length - 2]`; panics (`none`) for `length < 2`. -/
def prunedIteratorNew (order length : Nat) : Option (List Bool) :=
  if length < 2 then none else some (List.replicate (length - 2) false)

/-- `GolombRulerDepthIterator::new(order, length, depth)`: the same pre-state
`vec![false; length - 2]`; panics (`none`) for `length < 2`.  The `depth`
field is stored but never read by the iterator. -/
def depthIteratorNew (order length depth : Nat) : Option (List Bool) :=
  if length < 2 then none else some (List.replicate (length - 2) false)

/-- Collect the states emitted by `RulerIterator` (each `Iterator::next` call
applies `RulerState::next` and yields the updated state).  The fuel bounds
the source's unbounded iteration and is proved sufficient. -/
def runIter (length : Nat) : Nat → List Bool → List (List Bool)
  | 0, _ => []
  | fuel + 1, s =>
    match RulerState.next s length with
    | none => []
    | some t => t :: runIter length fuel t

/-- Collect the states emitted by `GolombRulerPrunedIterator`. -/
def runPruned (order length : Nat) : Nat → List Bool → List (List Bool)
  | 0, _ => []
  | fuel + 1, s =>
    match RulerState.next_pruned s order length with
    | none => []
    | some t => t :: runPruned order length fuel t

/-- Collect the states emitted by `GolombRulerDepthIterator`. -/
def runDepth (order length : Nat) : Nat → List Bool → List (List Bool)
  | 0, _ => []
  | fuel + 1, s =>
    match RulerState.next_golomb_depth_1 s order length with
    | none => []
    | some t => t :: runDepth order length fuel t

/-- `enumerate_rulers_with_length` from `mod.rs`: lengths 0 and 1 are served
by the decode path `from_id(0)` / `from_id(1)`; otherwise collect the
exhaustive `RulerIterator`. -/
def enumerate_rulers_with_length (length : Nat) : Option (List GolombRuler) :=
  if length = 0 then some [GolombRuler.from_id 0]
  else if length = 1 then some [GolombRuler.from_id 1]
  else (rulerIteratorNew length).map
    (fun pre => (runIter length (2 ^ length) pre).map RulerState.to_ruler)

/-- `enumerate_pruned_rulers` from `mod.rs`: `order == 2` is special-cased to
the single ruler `[length]`; otherwise collect `GolombRulerPrunedIterator`. -/
def enumerate_pruned_rulers (order length : Nat) : Option (List GolombRuler) :=
  if order = 2 then some [⟨[(length : Int)]⟩]
  else (prunedIteratorNew order length).map
    (fun pre => (runPruned order length (2 ^ length) pre).map RulerState.to_ruler)

/-- `enumerate_golomb_rulers_depth_with_length` from `mod.rs`: collect
`GolombRulerDepthIterator::new(order, length, depth)`. -/
def enumerate_golomb_rulers_depth_with_length (order length depth : Nat) :
    Option (List GolombRuler) :=
  (depthIteratorNew order length depth).map
    (fun pre => (runDepth order length (2 ^ length) pre).map RulerState.to_ruler)

/-! ## Proof devices: numeric value of a state, popcount, distance lists -/

/-- Numeric value of a state read as a binary numeral whose least-significant
end is the rightmost bit (the reading used by `to_u64` and by the traversal
order). -/
def val : List Bool → Nat
  | [] => 0
  | b :: r => (cond b 1 0) * 2 ^ r.length + val r

/-- Numeric value of a reversed state: head is the least-significant bit. -/
def valRev : List Bool → Nat
  | [] => 0
  | b :: r => (cond b 1 0) + 2 * valRev r

/-- Popcount of a natural number. -/
def cnt (v : Nat) : Nat :=
  if v = 0 then 0 else v % 2 + cnt (v / 2)
decreasing_by exact Nat.div_lt_self (Nat.pos_of_ne_zero (by assumption)) one_lt_two

/-- The reversed state of length `L` whose value is `v % 2 ^ L`. -/
def stateOfValRev (L v : Nat) : List Bool :=
  (List.range L).map (fun i => v.testBit i)

/-- The state of length `L` (most-significant bit first) whose value is
`v % 2 ^ L`. -/
def stateOfVal (L v : Nat) : List Bool := (stateOfValRev L v).reverse

/-- All pairwise absolute distances of a mark sequence, one entry per ordered
pair of positions `i < j`. -/
def pairDists : List GInt → List GInt
  | [] => []
  | x :: xs => xs.map (dist x) ++ pairDists xs

/-- The distances inspected by `Ruler::is_golomb_ruler`, in inspection order:
for each element, the element itself (distance from the implicit 0) followed
by its distances to the later elements. -/
def codeList : List GInt → List GInt
  | [] => []
  | x :: xs => x :: (xs.map (dist x) ++ codeList xs)

/-- Sequential duplicate-checking insertion of a whole list of distances:
the common shape of the two nested loops of `Ruler::is_golomb_ruler`. -/
def insertAll (ds : List GInt) : List GInt → Option (List GInt)
  | [] => some ds
  | x :: xs =>
    match Ruler.checkInsert ds x with
    | none => none
    | some ds' => insertAll ds' xs

/-- The values in `(x, 2^L)` whose popcount is `k`, in increasing order: the
numeric image of the states a pruned traversal must still visit. -/
def kvalsAbove (L k x : Nat) : List Nat :=
  (List.range (2 ^ L)).filter (fun v => decide (x < v) && decide (cnt v = k))

/-- Whether the canonical state of value `v` (length `L`) passes the depth-1
partial Golomb check: the numeric image of the predicate filtered by the
depth-limited traversal. -/
def passB (L v : Nat) : Bool :=
  decide (RulerState.is_golomb_ruler_order_1 (stateOfVal L v) = some true)

/-- The data-model invariant of a ruler (spec §3): marks form a strictly
increasing sequence of positive integers. -/
def ValidMarks (r : GolombRuler) : Prop :=
  r.marks.Sorted (· < ·) ∧ ∀ m ∈ r.marks, 0 < m

/-! ## Lemmas about the numeric value of a state -/

theorem valRev_append (x y : List Bool) :
    valRev (x ++ y) = valRev x + 2 ^ x.length * valRev y := by
  induction x with
  | nil => simp [valRev]
  | cons b r ih =>
    simp only [List.cons_append, valRev, List.append_eq]
    rw [ih, List.length_cons, pow_succ]
    ring

theorem val_eq_valRev (s : List Bool) : val s = valRev s.reverse := by
  induction s with
  | nil => rfl
  | cons b r ih =>
    simp only [val, List.reverse_cons, valRev_append, List.length_reverse, ih,
      valRev, mul_comm]
    cases b <;> simp <;> omega

theorem val_append (x y : List Bool) :
    val (x ++ y) = val x * 2 ^ y.length + val y := by
  simp only [val_eq_valRev, List.reverse_append, valRev_append,
    List.length_reverse]
  ring

theorem valRev_lt (t : List Bool) : valRev t < 2 ^ t.length := by
  induction t with
  | nil => simp [valRev]
  | cons b r ih =>
    simp only [valRev, List.length_cons, pow_succ]
    cases b <;> simp <;> omega

theorem val_lt (s : List Bool) : val s < 2 ^ s.length := by
  rw [val_eq_valRev, ← List.length_reverse s]
  exact valRev_lt _

theorem val_replicate_false (n : Nat) : val (List.replicate n false) = 0 := by
  induction n with
  | zero => rfl
  | succ m ih => simpa [List.replicate_succ, val] using ih

theorem val_replicate_true (n : Nat) :
    val (List.replicate n true) = 2 ^ n - 1 := by
  induction n with
  | zero => rfl
  | succ m ih =>
    have h1 : (1 : Nat) ≤ 2 ^ m := Nat.one_le_two_pow
    simp only [List.replicate_succ, val, List.length_replicate, ih, cond_true,
      pow_succ]
    omega

/-! ## Popcount lemmas -/

theorem cnt_zero : cnt 0 = 0 := by simp [cnt]

theorem cnt_two_mul (w : Nat) : cnt (2 * w) = cnt w := by
  rcases Nat.eq_zero_or_pos w with h | h
  · simp [h, cnt]
  · rw [cnt]
    simp only [Nat.mul_div_cancel_left _ (by norm_num : 0 < 2),
      Nat.mul_mod_right]
    have : 2 * w ≠ 0 := by omega
    simp [this]

theorem cnt_two_mul_add_one (w : Nat) : cnt (2 * w + 1) = cnt w + 1 := by
  rw [cnt]
  have h2 : (2 * w + 1) % 2 = 1 := by omega
  have h3 : (2 * w + 1) / 2 = w := by omega
  simp [h2, h3]
  omega

theorem cnt_pos : ∀ v : Nat, v ≠ 0 → 0 < cnt v := by
  intro v
  induction v using Nat.strong_induction_on with
  | _ v ih =>
    intro hv
    rw [cnt, if_neg hv]
    rcases Nat.eq_zero_or_pos (v % 2) with h | h
    · have hlt : v / 2 < v := Nat.div_lt_self (Nat.pos_of_ne_zero hv) one_lt_two
      have hne : v / 2 ≠ 0 := by omega
      have := ih (v / 2) hlt hne
      omega
    · omega

theorem cnt_eq_zero {v : Nat} : cnt v = 0 ↔ v = 0 := by
  constructor
  · intro h
    by_contra hv
    exact absurd h (Nat.ne_of_gt (cnt_pos v hv))
  · rintro rfl; exact cnt_zero

/-- Popcount splits across an addition when the summands occupy disjoint bit
ranges. -/
theorem cnt_add_of_lt : ∀ {z a r : Nat}, a % 2 ^ z = 0 → r < 2 ^ z →
    cnt (a + r) = cnt a + cnt r := by
  intro z
  induction z with
  | zero =>
    intro a r _ hr
    interval_cases r
    simp [cnt_zero]
  | succ m ih =>
    intro a r ha hr
    rcases Nat.eq_zero_or_pos r with rfl | hrpos
    · simp [cnt_zero]
    have h2 : (2 : Nat) ∣ a :=
      dvd_trans (dvd_pow_self 2 (Nat.succ_ne_zero m)) (Nat.dvd_of_mod_eq_zero ha)
    obtain ⟨q, rfl⟩ := h2
    have hq : q % 2 ^ m = 0 := by
      have h1 : 2 * q % (2 * 2 ^ m) = 2 * (q % 2 ^ m) := Nat.mul_mod_mul_left 2 q (2 ^ m)
      have h2' : (2 : Nat) ^ (m + 1) = 2 * 2 ^ m := by ring
      rw [h2'] at ha
      omega
    have hr2 : r / 2 < 2 ^ m := by
      have h2' : (2 : Nat) ^ (m + 1) = 2 * 2 ^ m := by ring
      rw [h2'] at hr
      omega
    have key : cnt (2 * q + r) = (2 * q + r) % 2 + cnt ((2 * q + r) / 2) := by
      rw [cnt, if_neg (by omega : ¬(2 * q + r = 0))]
    have hmod : (2 * q + r) % 2 = r % 2 := by omega
    have hdiv : (2 * q + r) / 2 = q + r / 2 := by omega
    have hcr : cnt r = r % 2 + cnt (r / 2) := by
      rw [cnt, if_neg (by omega : ¬(r = 0))]
    rw [key, hmod, hdiv, ih hq hr2, cnt_two_mul, hcr]
    omega

theorem count_true_reverse (s : List Bool) :
    s.reverse.count true = s.count true := List.count_reverse ..

/-- Bridge between the list popcount and the numeric popcount. -/
theorem count_true_eq_cnt_valRev (t : List Bool) :
    t.count true = cnt (valRev t) := by
  induction t with
  | nil => simp [valRev, cnt_zero]
  | cons b r ih =>
    cases b
    · have : valRev (false :: r) = 2 * valRev r := by
        simp only [valRev, cond_false]; omega
      rw [this, cnt_two_mul, List.count_cons]
      simpa using ih
    · have : valRev (true :: r) = 2 * valRev r + 1 := by
        simp only [valRev, cond_true]; omega
      rw [this, cnt_two_mul_add_one, List.count_cons]
      simpa using ih

theorem count_true_eq_cnt_val (s : List Bool) :
    s.count true = cnt (val s) := by
  rw [val_eq_valRev, ← count_true_reverse]
  exact count_true_eq_cnt_valRev s.reverse

/-! ## Lemmas about the elementary state transitions -/

namespace RulerState

theorem all_eq_false_iff {s : List Bool} : all s = false ↔ false ∈ s := by
  unfold all
  constructor
  · intro h
    rcases List.all_eq_false.mp h with ⟨b, hb, hid⟩
    cases b
    · exact hb
    · simp at hid
  · intro hf
    exact List.all_eq_false.mpr ⟨false, hf, by simp⟩

theorem all_eq_true_iff {s : List Bool} :
    all s = true ↔ s = List.replicate s.length true := by
  unfold all
  rw [List.all_eq_true, List.eq_replicate_iff]
  constructor
  · intro h; exact ⟨rfl, fun b hb => by simpa using h b hb⟩
  · intro h b hb; simp [h.2 b hb]

theorem val_all_true {s : List Bool} (h : all s = true) :
    val s = 2 ^ s.length - 1 := by
  rw [all_eq_true_iff] at h
  conv_lhs => rw [h]
  rw [val_replicate_true]

theorem getD_last_append (u : List Bool) (b : Bool) :
    (u ++ [b]).getD ((u ++ [b]).length - 1) false = b := by
  induction u with
  | nil => rfl
  | cons a u ih =>
    simpa [List.getD_cons_succ, Nat.add_sub_cancel] using ih

theorem back_one_then_right_append (u : List Bool) (b : Bool) :
    back_one_then_right (u ++ [b]) = u ++ [true] := by
  induction u with
  | nil => rfl
  | cons a u ih =>
    cases u with
    | nil => cases b <;> rfl
    | cons c w =>
      show a :: back_one_then_right ((c :: w) ++ [b]) = a :: ((c :: w) ++ [true])
      rw [ih]

theorem btRev_length (t : List Bool) : (btRev t).length = t.length := by
  induction t with
  | nil => rfl
  | cons b r ih => cases b <;> simp [btRev, ih]

theorem backtrack_length (s : List Bool) :
    (backtrack s).length = s.length := by
  simp [backtrack, btRev_length]

theorem btRev_val {t : List Bool} (h : false ∈ t) :
    valRev (btRev t) = valRev t + 1 := by
  induction t with
  | nil => cases h
  | cons b r ih =>
    cases b
    · simp only [btRev, valRev, cond_true, cond_false]
      omega
    · have hr : false ∈ r := by
        rcases List.mem_cons.mp h with h1 | h1
        · cases h1
        · exact h1
      simp only [btRev, valRev, ih hr, cond_false, cond_true]
      ring

theorem backtrack_val {s : List Bool} (h : all s = false) :
    val (backtrack s) = val s + 1 := by
  have hf : false ∈ s.reverse := by
    rw [List.mem_reverse]; exact all_eq_false_iff.mp h
  simp only [backtrack, val_eq_valRev, List.reverse_reverse]
  exact btRev_val hf

theorem val_append_single (u : List Bool) (b : Bool) :
    val (u ++ [b]) = 2 * val u + cond b 1 0 := by
  rw [val_append]
  simp only [val, List.length_cons, List.length_nil, pow_zero, pow_one]
  cases b <;> simp only [cond_true, cond_false] <;> omega

theorem add_mark_append_false (u : List Bool) :
    add_mark (u ++ [false]) = some (u ++ [true]) := by
  simp [add_mark, amRev, List.reverse_append]

theorem jbRev2_spec (k : Nat) (w : List Bool) :
    jbRev2 (List.replicate k true ++ false :: w) =
      List.replicate k false ++ true :: w := by
  induction k with
  | zero => rfl
  | succ m ih => simpa [List.replicate_succ, jbRev2] using ih

theorem jbRev_false_pad (z : Nat) (t : List Bool) :
    jbRev (List.replicate z false ++ t) =
      List.replicate z false ++ jbRev t := by
  induction z with
  | zero => rfl
  | succ m ih => simpa [List.replicate_succ, jbRev] using ih

theorem jbRev_block (z m' : Nat) (Y : List Bool) :
    jbRev (List.replicate z false ++
        true :: (List.replicate m' true ++ false :: Y)) =
      List.replicate z false ++
        false :: (List.replicate m' false ++ true :: Y) := by
  rw [jbRev_false_pad, jbRev, jbRev2_spec]

theorem jump_back_spec (X : List Bool) (m z : Nat) (hm : 1 ≤ m) :
    jump_back (X ++ false :: (List.replicate m true ++ List.replicate z false)) =
      X ++ true :: List.replicate (m + z) false := by
  obtain ⟨m', rfl⟩ : ∃ m', m = m' + 1 := ⟨m - 1, by omega⟩
  have hrev : (X ++ false ::
      (List.replicate (m' + 1) true ++ List.replicate z false)).reverse =
      List.replicate z false ++ true :: (List.replicate m' true ++ false :: X.reverse) := by
    simp [List.reverse_append, List.reverse_replicate, List.replicate_succ',
      List.append_assoc]
  unfold jump_back
  rw [hrev, jbRev_block]
  have htail : List.replicate m' false ++ false :: List.replicate z false =
      List.replicate (m' + 1 + z) false := by
    rw [show m' + 1 + z = m' + (1 + z) by omega, List.replicate_add,
      List.replicate_add]
    simp
  simp only [List.reverse_append, List.reverse_cons, List.reverse_replicate,
    List.reverse_reverse, List.append_assoc, List.cons_append, List.nil_append,
    List.singleton_append]
  rw [← htail]

/-! ## Shape decompositions used by the pruned transition -/

theorem head_block_false (t : List Bool) :
    ∃ z t', t = List.replicate z false ++ t' ∧ t'.head? ≠ some false := by
  induction t with
  | nil => exact ⟨0, [], rfl, by simp⟩
  | cons b r ih =>
    cases b
    · obtain ⟨z, t', heq, hh⟩ := ih
      exact ⟨z + 1, t', by simp [List.replicate_succ, heq], hh⟩
    · exact ⟨0, true :: r, rfl, by simp⟩

theorem head_block_true (t : List Bool) :
    ∃ m t', t = List.replicate m true ++ t' ∧ t'.head? ≠ some true := by
  induction t with
  | nil => exact ⟨0, [], rfl, by simp⟩
  | cons b r ih =>
    cases b
    · exact ⟨0, false :: r, rfl, by simp⟩
    · obtain ⟨m, t', heq, hh⟩ := ih
      exact ⟨m + 1, t', by simp [List.replicate_succ, heq], hh⟩

theorem count_zero_eq_replicate {t : List Bool} (h : t.count true = 0) :
    t = List.replicate t.length false := by
  rw [List.eq_replicate_iff]
  refine ⟨rfl, fun b hb => ?_⟩
  cases b
  · rfl
  · rw [List.count_eq_zero] at h
    exact absurd hb h

theorem take_all_shape {s : List Bool} {k : Nat} (hc : s.count true = k)
    (ht : (s.take k).all id = true) :
    k ≤ s.length ∧
      s = List.replicate k true ++ List.replicate (s.length - k) false := by
  have htk : s.take k = List.replicate (min k s.length) true := by
    rw [List.eq_replicate_iff]
    refine ⟨by simp, fun b hb => ?_⟩
    simpa using List.all_eq_true.mp ht b hb
  have hsplit : s.take k ++ s.drop k = s := List.take_append_drop k s
  have hcnt : (s.take k).count true + (s.drop k).count true = k := by
    rw [← List.count_append, hsplit, hc]
  have hmin : (s.take k).count true = min k s.length := by
    rw [htk, List.count_replicate]
    simp
  rcases le_or_lt k s.length with hk | hk
  · have hdz : (s.drop k).count true = 0 := by
      rw [hmin, min_eq_left hk] at hcnt
      omega
    refine ⟨hk, ?_⟩
    conv_lhs => rw [← hsplit]
    rw [htk, min_eq_left hk, count_zero_eq_replicate hdz]
    congr 1
    simp
  · exfalso
    have hd : s.drop k = [] := by
      rw [List.drop_eq_nil_iff]
      omega
    rw [hmin, min_eq_right (le_of_lt hk), hd] at hcnt
    simp at hcnt
    omega

theorem shape_of_last_false {s : List Bool} {u : List Bool}
    (hlast : s = u ++ [false]) (hcpos : s.count true ≠ 0) :
    (∃ X m z, s = X ++ false ::
        (List.replicate m true ++ List.replicate z false) ∧ 1 ≤ m ∧ 1 ≤ z)
    ∨ (∃ z, s = List.replicate (s.count true) true ++ List.replicate z false ∧
        1 ≤ z) := by
  obtain ⟨z, t₁, heq, hh⟩ := head_block_false s.reverse
  have hhead : s.reverse.head? = some false := by
    rw [hlast]
    simp
  have ht₁ : t₁ ≠ [] := by
    rintro rfl
    have : s = List.replicate z false := by
      have := congrArg List.reverse heq
      simpa [List.reverse_replicate] using this
    rw [this, List.count_replicate] at hcpos
    simp at hcpos
  have hz : 1 ≤ z := by
    rcases Nat.eq_zero_or_pos z with rfl | h
    · simp at heq
      rw [← heq] at hh
      exact absurd hhead hh
    · exact h
  obtain ⟨c, w, rfl⟩ : ∃ c w, t₁ = c :: w := by
    cases t₁ with
    | nil => exact absurd rfl ht₁
    | cons c w => exact ⟨c, w, rfl⟩
  have hc : c = true := by
    cases c
    · simp at hh
    · rfl
  subst hc
  obtain ⟨m, t₂, heq2, hh2⟩ := head_block_true (true :: w)
  have hm : 1 ≤ m := by
    rcases Nat.eq_zero_or_pos m with rfl | h
    · simp at heq2
      rw [← heq2] at hh2
      simp at hh2
    · exact h
  cases t₂ with
  | nil =>
    right
    have hseq : s = List.replicate m true ++ List.replicate z false := by
      have h1 : s.reverse = List.replicate z false ++ List.replicate m true := by
        rw [heq, heq2]
        simp
      have h2 := congrArg List.reverse h1
      rw [List.reverse_reverse] at h2
      rw [h2]
      simp [List.reverse_append, List.reverse_replicate]
    have hcount : s.count true = m := by
      rw [hseq]
      simp [List.count_append, List.count_replicate]
    refine ⟨z, ?_, hz⟩
    rw [hcount]
    exact hseq
  | cons c' w' =>
    left
    have hc' : c' = false := by
      cases c'
      · rfl
      · simp at hh2
    subst hc'
    refine ⟨w'.reverse, m, z, ?_, hm, hz⟩
    have hrev : s.reverse = List.replicate z false ++
        (List.replicate m true ++ (false :: w')) := by
      rw [heq, heq2]
    have h2 := congrArg List.reverse hrev
    rw [List.reverse_reverse] at h2
    rw [h2]
    simp [List.reverse_append, List.reverse_replicate]

/-! ## Value arithmetic for the jump-back shapes -/

theorem val_shapeA (X : List Bool) (m z : Nat) :
    val (X ++ false :: (List.replicate m true ++ List.replicate z false)) =
      (2 * val X * 2 ^ m + (2 ^ m - 1)) * 2 ^ z := by
  rw [show X ++ false :: (List.replicate m true ++ List.replicate z false) =
    ((X ++ [false]) ++ List.replicate m true) ++ List.replicate z false by simp]
  rw [val_append, val_append, val_append_single, val_replicate_false,
    val_replicate_true, List.length_replicate, List.length_replicate]
  simp

theorem val_shapeB (X : List Bool) (n : Nat) :
    val (X ++ true :: List.replicate n false) = (2 * val X + 1) * 2 ^ n := by
  rw [show X ++ true :: List.replicate n false =
    (X ++ [true]) ++ List.replicate n false by simp]
  rw [val_append, val_append_single, val_replicate_false, List.length_replicate]
  simp

theorem jump_back_val (X : List Bool) (m z : Nat) :
    val (X ++ true :: List.replicate (m + z) false) =
      val (X ++ false :: (List.replicate m true ++ List.replicate z false))
        + 2 ^ z := by
  rw [val_shapeA, val_shapeB]
  obtain ⟨c, hc⟩ : ∃ c, (2 : Nat) ^ m = c + 1 :=
    ⟨2 ^ m - 1, by have := Nat.one_le_two_pow (n := m); omega⟩
  rw [pow_add, hc]
  simp only [Nat.add_sub_cancel]
  ring

/-! ## Characterization of `pruned_propose_next` -/

/-- A successful proposal strictly increases the state's value, preserves its
length, and skips only values whose popcount differs from `order - 2`. -/
theorem propose_some {s t : List Bool} {order : Nat} (h1 : 1 ≤ s.length)
    (h2 : 2 ≤ order) (h : pruned_propose_next s order = some t) :
    t.length = s.length ∧ val s < val t ∧
      ∀ v, val s < v → v < val t → cnt v ≠ order - 2 := by
  obtain ⟨u, b, rfl⟩ : ∃ u b, s = u ++ [b] := by
    rcases List.eq_nil_or_concat s with rfl | ⟨u, b, hcat⟩
    · simp at h1
    · exact ⟨u, b, by simpa [List.concat_eq_append] using hcat⟩
  unfold pruned_propose_next at h
  rw [getD_last_append] at h
  cases b with
  | false =>
    rw [if_pos rfl] at h
    by_cases hto : total_marks (u ++ [false]) = order
    · rw [if_pos hto] at h
      by_cases hguard : ((u ++ [false]).take (order - 2)).all id = true
      · rw [if_pos hguard] at h
        exact absurd h (by simp)
      · rw [if_neg hguard] at h
        have ht : t = jump_back (u ++ [false]) := by
          injection h with h
          exact h.symm
        have hcount : (u ++ [false]).count true = order - 2 := by
          unfold total_marks count_marks at hto
          omega
        have hcpos : (u ++ [false]).count true ≠ 0 := by
          intro h0
          rw [h0] at hcount
          have : order - 2 = 0 := hcount.symm
          rw [this] at hguard
          simp at hguard
        rcases shape_of_last_false rfl hcpos with
          ⟨X, m, z, hshape, hm, hz⟩ | ⟨z, hshape, hz⟩
        · -- genuine jump-back: the state ends in `0 1^m 0^z`
          rw [hshape] at ht
          rw [jump_back_spec X m z hm] at ht
          have hlen : t.length = (u ++ [false]).length := by
            rw [ht, hshape]
            simp
          have hvs : val (u ++ [false]) =
              (2 * val X * 2 ^ m + (2 ^ m - 1)) * 2 ^ z := by
            rw [hshape, val_shapeA]
          have hvt : val t = val (u ++ [false]) + 2 ^ z := by
            rw [ht, hshape, jump_back_val]
          have hmod : val (u ++ [false]) % 2 ^ z = 0 := by
            rw [hvs]
            exact Nat.mul_mod_left _ _
          have hcnt : cnt (val (u ++ [false])) = order - 2 := by
            rw [← count_true_eq_cnt_val, hcount]
          refine ⟨hlen, by omega, ?_⟩
          intro v hv1 hv2
          obtain ⟨r, hr⟩ : ∃ r, v = val (u ++ [false]) + r := ⟨v - val (u ++ [false]), by omega⟩
          have hrlt : r < 2 ^ z := by omega
          rw [hr, cnt_add_of_lt hmod hrlt, hcnt]
          have : 0 < cnt r := cnt_pos r (by omega)
          omega
        · -- the state is `1^k 0^z`: then the guard would have fired
          exfalso
          apply hguard
          rw [hshape, ← hcount]
          rw [List.take_append_of_le_length (by simp)]
          rw [List.all_eq_true]
          intro b hb
          have := List.eq_of_mem_replicate (List.mem_of_mem_take hb)
          simp [this]
    · rw [if_neg hto] at h
      rw [add_mark_append_false] at h
      have ht : t = u ++ [true] := by
        injection h with h
        exact h.symm
      subst ht
      refine ⟨by simp, ?_, ?_⟩
      · rw [val_append_single, val_append_single]
        simp
      · intro v hv1 hv2
        rw [val_append_single] at hv1
        rw [val_append_single] at hv2
        simp at hv1 hv2
        omega
  | true =>
    rw [if_neg (by simp)] at h
    by_cases hall : all (u ++ [true]) = true
    · rw [if_pos hall] at h
      exact absurd h (by simp)
    · rw [if_neg hall] at h
      have ht : t = backtrack (u ++ [true]) := by
        injection h with h
        exact h.symm
      subst ht
      have hfalse : all (u ++ [true]) = false := by
        cases hv : all (u ++ [true])
        · rfl
        · exact absurd hv hall
      refine ⟨backtrack_length _, ?_, ?_⟩
      · rw [backtrack_val hfalse]
        omega
      · intro v hv1 hv2
        rw [backtrack_val hfalse] at hv2
        omega

/-- A failed proposal means no state of the same length and popcount
`order - 2` lies above the current value. -/
theorem propose_none {s : List Bool} {order : Nat} (h1 : 1 ≤ s.length)
    (h2 : 2 ≤ order) (h : pruned_propose_next s order = none) :
    ∀ v, val s < v → v < 2 ^ s.length → cnt v ≠ order - 2 := by
  obtain ⟨u, b, rfl⟩ : ∃ u b, s = u ++ [b] := by
    rcases List.eq_nil_or_concat s with rfl | ⟨u, b, hcat⟩
    · simp at h1
    · exact ⟨u, b, by simpa [List.concat_eq_append] using hcat⟩
  unfold pruned_propose_next at h
  rw [getD_last_append] at h
  cases b with
  | false =>
    rw [if_pos rfl] at h
    by_cases hto : total_marks (u ++ [false]) = order
    · rw [if_pos hto] at h
      by_cases hguard : ((u ++ [false]).take (order - 2)).all id = true
      · -- the state is `1^k 0^(L-k)`
        have hcount : (u ++ [false]).count true = order - 2 := by
          unfold total_marks count_marks at hto
          omega
        obtain ⟨hk, hshape⟩ := take_all_shape hcount hguard
        intro v hv1 hv2
        set L := (u ++ [false]).length with hL
        set k := order - 2 with hkdef
        have hvs : val (u ++ [false]) = (2 ^ k - 1) * 2 ^ (L - k) := by
          conv_lhs => rw [hshape]
          rw [val_append, val_replicate_true, val_replicate_false,
            List.length_replicate]
          simp
        have hmod : val (u ++ [false]) % 2 ^ (L - k) = 0 := by
          rw [hvs]
          exact Nat.mul_mod_left _ _
        have hcnt : cnt (val (u ++ [false])) = k := by
          rw [← count_true_eq_cnt_val, hcount]
        have hpow : (2 : Nat) ^ L = 2 ^ k * 2 ^ (L - k) := by
          rw [← pow_add]
          congr 1
          omega
        have hone : (1 : Nat) ≤ 2 ^ k := Nat.one_le_two_pow
        have hiden : (2 ^ k - 1) * 2 ^ (L - k) + 2 ^ (L - k) =
            2 ^ k * 2 ^ (L - k) := by
          obtain ⟨c, hc⟩ : ∃ c, (2 : Nat) ^ k = c + 1 := ⟨2 ^ k - 1, by omega⟩
          rw [hc]
          simp only [Nat.add_sub_cancel]
          ring
        obtain ⟨r, hr⟩ : ∃ r, v = val (u ++ [false]) + r :=
          ⟨v - val (u ++ [false]), by omega⟩
        have hrlt : r < 2 ^ (L - k) := by
          have hv2' : v < 2 ^ k * 2 ^ (L - k) := by rw [← hpow]; exact hv2
          omega
        rw [hr, cnt_add_of_lt hmod hrlt, hcnt]
        have : 0 < cnt r := cnt_pos r (by omega)
        omega
      · rw [if_neg hguard] at h
        exact absurd h (by simp)
    · rw [if_neg hto] at h
      rw [add_mark_append_false] at h
      exact absurd h (by simp)
  | true =>
    rw [if_neg (by simp)] at h
    by_cases hall : all (u ++ [true]) = true
    · intro v hv1 hv2
      rw [val_all_true hall] at hv1
      have := Nat.one_le_two_pow (n := (u ++ [true]).length)
      omega
    · rw [if_neg hall] at h
      exact absurd h (by simp)

/-! ## Characterization of the propose loop and of `next_pruned` -/

theorem proposeLoop_succ_none {order fuel : Nat} {s : List Bool}
    (hp : pruned_propose_next s order = none) :
    proposeLoop order (fuel + 1) s = none := by
  unfold proposeLoop
  rw [hp]

theorem proposeLoop_succ_some {order fuel : Nat} {s t₀ : List Bool}
    (hp : pruned_propose_next s order = some t₀) :
    proposeLoop order (fuel + 1) s =
      if total_marks t₀ = order then some t₀
      else proposeLoop order fuel t₀ := by
  conv_lhs => unfold proposeLoop
  rw [hp]

/-- The fuelled propose loop produces the value-least state of the same
length whose popcount is `order - 2` and whose value exceeds the current
one, or fails when no such state exists. -/
theorem proposeLoop_spec {order : Nat} (h2 : 2 ≤ order) :
    ∀ fuel (s : List Bool), 1 ≤ s.length → 2 ^ s.length - val s ≤ fuel →
      (∀ t, proposeLoop order fuel s = some t →
        t.length = s.length ∧ val s < val t ∧ cnt (val t) = order - 2 ∧
          ∀ v, val s < v → v < val t → cnt v ≠ order - 2) ∧
      (proposeLoop order fuel s = none →
        ∀ v, val s < v → v < 2 ^ s.length → cnt v ≠ order - 2) := by
  intro fuel
  induction fuel with
  | zero =>
    intro s _ hfuel
    have := val_lt s
    omega
  | succ fuel ih =>
    intro s h1 hfuel
    constructor
    · intro t ht
      cases hp : pruned_propose_next s order with
      | none => rw [proposeLoop_succ_none hp] at ht; exact absurd ht (by simp)
      | some t₀ =>
        rw [proposeLoop_succ_some hp] at ht
        obtain ⟨hlen, hlt, hgap⟩ := propose_some h1 h2 hp
        by_cases hto : total_marks t₀ = order
        · rw [if_pos hto] at ht
          obtain rfl : t₀ = t := by injection ht
          refine ⟨hlen, hlt, ?_, hgap⟩
          rw [← count_true_eq_cnt_val]
          unfold total_marks count_marks at hto
          omega
        · rw [if_neg hto] at ht
          have ht1 : 1 ≤ t₀.length := by omega
          have htf : 2 ^ t₀.length - val t₀ ≤ fuel := by
            have := val_lt s
            rw [hlen]
            omega
          obtain ⟨ihs, _⟩ := ih t₀ ht1 htf
          obtain ⟨hl2, hlt2, hcnt2, hgap2⟩ := ihs t ht
          have hcnt0 : cnt (val t₀) ≠ order - 2 := by
            rw [← count_true_eq_cnt_val]
            unfold total_marks count_marks at hto
            omega
          refine ⟨by omega, by omega, hcnt2, ?_⟩
          intro v hv1 hv2
          rcases lt_trichotomy v (val t₀) with h | h | h
          · exact hgap v hv1 h
          · rw [h]; exact hcnt0
          · exact hgap2 v h hv2
    · intro ht
      cases hp : pruned_propose_next s order with
      | none => exact propose_none h1 h2 hp
      | some t₀ =>
        rw [proposeLoop_succ_some hp] at ht
        obtain ⟨hlen, hlt, hgap⟩ := propose_some h1 h2 hp
        by_cases hto : total_marks t₀ = order
        · rw [if_pos hto] at ht; exact absurd ht (by simp)
        · rw [if_neg hto] at ht
          have ht1 : 1 ≤ t₀.length := by omega
          have htf : 2 ^ t₀.length - val t₀ ≤ fuel := by
            have := val_lt s
            rw [hlen]
            omega
          obtain ⟨_, ihn⟩ := ih t₀ ht1 htf
          have hrest := ihn ht
          have hcnt0 : cnt (val t₀) ≠ order - 2 := by
            rw [← count_true_eq_cnt_val]
            unfold total_marks count_marks at hto
            omega
          intro v hv1 hv2
          rcases lt_trichotomy v (val t₀) with h | h | h
          · exact hgap v hv1 h
          · rw [h]; exact hcnt0
          · exact hrest v h (by rw [hlen]; exact hv2)

/-- `next_pruned` on a full-length state is exactly the propose loop, and the
supplied fuel is sufficient. -/
theorem next_pruned_at_length {order length : Nat} {s : List Bool}
    (hs : s.length = length - 1) (hl : 2 ≤ length) :
    next_pruned s order length = proposeLoop order (2 ^ (length - 1)) s := by
  rw [next_pruned]
  rw [if_neg (by omega), if_neg (by omega)]

/-- Unfolding `next_pruned` from the iterator pre-state: one `go_left` pad
then the propose loop on the all-false state of full length. -/
theorem next_pruned_pre {order length : Nat} (hl : 2 ≤ length) :
    next_pruned (List.replicate (length - 2) false) order length =
      proposeLoop order (2 ^ (length - 1))
        (List.replicate (length - 1) false) := by
  rw [next_pruned]
  rw [if_neg (by simp; omega), if_pos (by simp; omega)]
  have hpad : go_left (List.replicate (length - 2) false) =
      List.replicate (length - 1) false := by
    unfold go_left
    rw [← List.replicate_succ' (length - 2) false]
    congr 1
    omega
  rw [hpad, next_pruned_at_length (by simp) hl]

end RulerState

/-! ## The canonical state of a given value -/

theorem length_stateOfValRev (L v : Nat) : (stateOfValRev L v).length = L := by
  simp [stateOfValRev]

theorem length_stateOfVal (L v : Nat) : (stateOfVal L v).length = L := by
  simp [stateOfVal, length_stateOfValRev]

theorem stateOfValRev_concat (L v : Nat) :
    stateOfValRev (L + 1) v = stateOfValRev L v ++ [v.testBit L] := by
  unfold stateOfValRev
  rw [List.range_succ, List.map_append]
  rfl

theorem stateOfValRev_succ (L v : Nat) :
    stateOfValRev (L + 1) v = v.testBit 0 :: stateOfValRev L (v / 2) := by
  unfold stateOfValRev
  rw [List.range_succ_eq_map, List.map_cons, List.map_map]
  congr 1
  apply List.map_congr_left
  intro i _
  exact Nat.testBit_succ v i

theorem valRev_stateOfValRev (L v : Nat) :
    valRev (stateOfValRev L v) = v % 2 ^ L := by
  induction L with
  | zero => simp [stateOfValRev, valRev, Nat.mod_one]
  | succ L ih =>
    rw [stateOfValRev_concat, valRev_append, ih, length_stateOfValRev,
      Nat.mod_pow_succ, Nat.testBit_to_div_mod]
    have h2 : v / 2 ^ L % 2 < 2 := Nat.mod_lt _ (by norm_num)
    rcases (by omega : v / 2 ^ L % 2 = 0 ∨ v / 2 ^ L % 2 = 1) with h | h <;>
      rw [h] <;> simp [valRev]

theorem stateOfValRev_valRev (t : List Bool) :
    stateOfValRev t.length (valRev t) = t := by
  induction t with
  | nil => rfl
  | cons b r ih =>
    rw [List.length_cons, stateOfValRev_succ]
    have h0 : (valRev (b :: r)).testBit 0 = b := by
      rw [Nat.testBit_zero]
      cases b <;> simp [valRev] <;> omega
    have h1 : valRev (b :: r) / 2 = valRev r := by
      cases b <;> simp [valRev] <;> omega
    rw [h0, h1, ih]

theorem val_stateOfVal {L v : Nat} (h : v < 2 ^ L) :
    val (stateOfVal L v) = v := by
  rw [stateOfVal, val_eq_valRev, List.reverse_reverse, valRev_stateOfValRev,
    Nat.mod_eq_of_lt h]

theorem stateOfVal_val (s : List Bool) : stateOfVal s.length (val s) = s := by
  rw [stateOfVal, val_eq_valRev, ← List.length_reverse, stateOfValRev_valRev,
    List.reverse_reverse]

theorem count_stateOfVal {L v : Nat} (h : v < 2 ^ L) :
    (stateOfVal L v).count true = cnt v := by
  rw [count_true_eq_cnt_val, val_stateOfVal h]

/-! ## The `kvalsAbove` list -/

theorem kvalsAbove_nil {L k x : Nat}
    (hnone : ∀ v, x < v → v < 2 ^ L → cnt v ≠ k) : kvalsAbove L k x = [] := by
  unfold kvalsAbove
  rw [List.filter_eq_nil_iff]
  intro v hv
  rw [List.mem_range] at hv
  simp only [Bool.and_eq_true, decide_eq_true_eq, not_and]
  intro hx
  exact hnone v hx hv

theorem kvalsAbove_cons {L k x w : Nat} (hxw : x < w) (hw : w < 2 ^ L)
    (hck : cnt w = k) (hmin : ∀ v, x < v → v < w → cnt v ≠ k) :
    kvalsAbove L k x = w :: kvalsAbove L k w := by
  unfold kvalsAbove
  have hsplit : List.range (2 ^ L) =
      (List.range' 0 w ++ [w]) ++ List.range' (w + 1) (2 ^ L - (w + 1)) := by
    rw [List.range_eq_range']
    have h1 : List.range' 0 w ++ [w] = List.range' 0 (w + 1) := by
      rw [List.range'_concat]
      simp
    rw [h1]
    obtain ⟨X, hX⟩ : ∃ X, 2 ^ L - (w + 1) = X := ⟨_, rfl⟩
    rw [hX]
    have h2 := List.range'_append 0 (w + 1) X 1
    simp only [Nat.zero_add, Nat.one_mul] at h2
    rw [show (2 : Nat) ^ L = X + (w + 1) by omega]
    exact h2.symm
  rw [hsplit]
  simp only [List.filter_append]
  have hlow : ∀ (p : Nat → Bool), (∀ v, v < w → p v = false) →
      (List.range' 0 w).filter p = [] := by
    intro p hp
    rw [List.filter_eq_nil_iff]
    intro a ha
    rw [List.mem_range'_1] at ha
    rw [hp a (by omega)]
    simp
  rw [hlow (fun v => decide (x < v) && decide (cnt v = k)) (fun v hv => by
    simp only [Bool.and_eq_false_iff, decide_eq_false_iff_not]
    by_cases hxv : x < v
    · right; exact hmin v hxv hv
    · left; exact hxv)]
  rw [hlow (fun v => decide (w < v) && decide (cnt v = k)) (fun v hv => by
    simp only [Bool.and_eq_false_iff, decide_eq_false_iff_not]
    left; omega)]
  have hsingle : [w].filter (fun v => decide (x < v) && decide (cnt v = k)) = [w] := by
    simp [hxw, hck]
  have hsingle2 : [w].filter (fun v => decide (w < v) && decide (cnt v = k)) = [] := by
    simp
  rw [hsingle, hsingle2]
  have hcong : (List.range' (w + 1) (2 ^ L - (w + 1))).filter
      (fun v => decide (x < v) && decide (cnt v = k)) =
      (List.range' (w + 1) (2 ^ L - (w + 1))).filter
      (fun v => decide (w < v) && decide (cnt v = k)) := by
    apply List.filter_congr
    intro v hv
    rw [List.mem_range'_1] at hv
    have hx : x < v := by omega
    have hw2 : w < v := by omega
    simp [hx, hw2]
  rw [hcong]
  simp

/-! ## Characterization of the pruned runner -/

theorem runPruned_succ (order length fuel : Nat) (s : List Bool) :
    runPruned order length (fuel + 1) s =
      match RulerState.next_pruned s order length with
      | none => []
      | some t => t :: runPruned order length fuel t := rfl

theorem runPruned_eq {order length : Nat} (h2 : 2 ≤ order) (hl : 2 ≤ length) :
    ∀ n fuel (s : List Bool), s.length = length - 1 →
      2 ^ (length - 1) - val s ≤ n → n < fuel →
      runPruned order length fuel s =
        (kvalsAbove (length - 1) (order - 2) (val s)).map
          (stateOfVal (length - 1)) := by
  intro n
  induction n with
  | zero =>
    intro fuel s hs hn _
    have := val_lt s
    rw [hs] at this
    omega
  | succ n ih =>
    intro fuel s hs hn hfuel
    obtain ⟨f, rfl⟩ : ∃ f, fuel = f + 1 := ⟨fuel - 1, by omega⟩
    rw [runPruned_succ]
    rw [RulerState.next_pruned_at_length hs hl]
    have h1 : 1 ≤ s.length := by omega
    have hfb : 2 ^ s.length - val s ≤ 2 ^ (length - 1) := by
      rw [hs]
      exact Nat.sub_le _ _
    obtain ⟨hspec_some, hspec_none⟩ :=
      RulerState.proposeLoop_spec h2 (2 ^ (length - 1)) s h1 hfb
    cases hres : RulerState.proposeLoop order (2 ^ (length - 1)) s with
    | none =>
      have hnone := hspec_none hres
      rw [hs] at hnone
      rw [kvalsAbove_nil hnone]
      rfl
    | some t =>
      show t :: runPruned order length f t =
        (kvalsAbove (length - 1) (order - 2) (val s)).map (stateOfVal (length - 1))
      obtain ⟨hlen, hlt, hcnt, hgap⟩ := hspec_some t hres
      have hwlt : val t < 2 ^ (length - 1) := by
        have := val_lt t
        rw [hlen, hs] at this
        exact this
      rw [kvalsAbove_cons hlt hwlt hcnt hgap]
      rw [List.map_cons]
      have htv : stateOfVal (length - 1) (val t) = t := by
        have := stateOfVal_val t
        rw [hlen, hs] at this
        exact this
      rw [htv]
      congr 1
      have hlent : t.length = length - 1 := by rw [hlen, hs]
      have hb1 : 2 ^ (length - 1) - val t ≤ n := by omega
      exact ih f t hlent hb1 (by omega)

theorem runPruned_from_pre {order length : Nat} (h2 : 2 ≤ order)
    (hl : 2 ≤ length) :
    runPruned order length (2 ^ length) (List.replicate (length - 2) false) =
      (kvalsAbove (length - 1) (order - 2) 0).map (stateOfVal (length - 1)) := by
  obtain ⟨f, hf⟩ : ∃ f, 2 ^ length = f + 1 :=
    ⟨2 ^ length - 1, (Nat.succ_pred_eq_of_pos (Nat.two_pow_pos length)).symm⟩
  rw [hf, runPruned_succ, RulerState.next_pruned_pre hl]
  set s₀ : List Bool := List.replicate (length - 1) false with hs₀
  have hlen₀ : s₀.length = length - 1 := by simp [hs₀]
  have hval₀ : val s₀ = 0 := val_replicate_false _
  have h1 : 1 ≤ s₀.length := by rw [hlen₀]; omega
  have hfb : 2 ^ s₀.length - val s₀ ≤ 2 ^ (length - 1) := by
    rw [hlen₀]
    exact Nat.sub_le _ _
  obtain ⟨hspec_some, hspec_none⟩ :=
    RulerState.proposeLoop_spec h2 (2 ^ (length - 1)) s₀ h1 hfb
  cases hres : RulerState.proposeLoop order (2 ^ (length - 1)) s₀ with
  | none =>
    have hnone := hspec_none hres
    rw [hlen₀, hval₀] at hnone
    rw [kvalsAbove_nil hnone]
    rfl
  | some t =>
    show t :: runPruned order length f t =
      (kvalsAbove (length - 1) (order - 2) 0).map (stateOfVal (length - 1))
    obtain ⟨hlen, hlt, hcnt, hgap⟩ := hspec_some t hres
    rw [hval₀] at hlt hgap
    have hwlt : val t < 2 ^ (length - 1) := by
      have := val_lt t
      rw [hlen, hlen₀] at this
      exact this
    rw [kvalsAbove_cons hlt hwlt hcnt hgap, List.map_cons]
    have htv : stateOfVal (length - 1) (val t) = t := by
      have := stateOfVal_val t
      rw [hlen, hlen₀] at this
      exact this
    rw [htv]
    congr 1
    have hpow : 2 ^ (length - 1) ≤ f := by
      have h1le : (1 : Nat) ≤ 2 ^ (length - 1) := Nat.one_le_two_pow
      have : 2 ^ length = 2 * 2 ^ (length - 1) := by
        rw [← pow_succ']
        congr 1
        omega
      omega
    have hlent : t.length = length - 1 := by rw [hlen, hlen₀]
    have hb1 : 2 ^ (length - 1) - val t ≤ 2 ^ (length - 1) - 1 := by omega
    exact runPruned_eq h2 hl (2 ^ (length - 1) - 1) f t hlent hb1 (by omega)

/-! ## Characterization of the exhaustive runner -/

/-- Case analysis of the exhaustive transition on a full-length state: it
terminates exactly on the all-ones state and otherwise increments the
state's value. -/
theorem next_cases {length : Nat} {s : List Bool} (hs : s.length = length - 1)
    (hl : 2 ≤ length) :
    (RulerState.all s = true → RulerState.next s length = none) ∧
    (RulerState.all s = false → ∃ t, RulerState.next s length = some t ∧
      t.length = s.length ∧ val t = val s + 1) := by
  obtain ⟨u, b, rfl⟩ : ∃ u b, s = u ++ [b] := by
    rcases List.eq_nil_or_concat s with rfl | ⟨u, b, hcat⟩
    · simp at hs
      omega
    · exact ⟨u, b, by simpa [List.concat_eq_append] using hcat⟩
  unfold RulerState.next
  rw [if_neg (by omega), if_neg (by omega), RulerState.getD_last_append]
  constructor
  · intro hall
    have hb : b = true := by
      have := List.all_eq_true.mp hall b (by simp)
      simpa using this
    subst hb
    rw [if_neg (by simp), if_pos hall]
  · intro hall
    cases b with
    | false =>
      rw [if_pos rfl, RulerState.back_one_then_right_append]
      refine ⟨u ++ [true], rfl, by simp, ?_⟩
      rw [RulerState.val_append_single, RulerState.val_append_single]
      simp
    | true =>
      rw [if_neg (by simp), if_neg (by simp [hall])]
      exact ⟨RulerState.backtrack (u ++ [true]), rfl,
        RulerState.backtrack_length _, RulerState.backtrack_val hall⟩

theorem runIter_succ (length fuel : Nat) (s : List Bool) :
    runIter length (fuel + 1) s =
      match RulerState.next s length with
      | none => []
      | some t => t :: runIter length fuel t := rfl

theorem runIter_eq {length : Nat} (hl : 2 ≤ length) :
    ∀ n fuel (s : List Bool), s.length = length - 1 →
      2 ^ (length - 1) - 1 - val s ≤ n → n < fuel →
      runIter length fuel s =
        (List.range' (val s + 1) (2 ^ (length - 1) - 1 - val s)).map
          (stateOfVal (length - 1)) := by
  intro n
  induction n with
  | zero =>
    intro fuel s hs hn hfuel
    have hvs : val s < 2 ^ (length - 1) := by
      have := val_lt s
      rw [hs] at this
      exact this
    have hveq : val s = 2 ^ (length - 1) - 1 := by omega
    have hzero : 2 ^ (length - 1) - 1 - val s = 0 := by omega
    rw [hzero]
    obtain ⟨f, rfl⟩ : ∃ f, fuel = f + 1 := ⟨fuel - 1, by omega⟩
    rw [runIter_succ]
    obtain ⟨hterm, hstep⟩ := next_cases hs hl
    cases hall : RulerState.all s with
    | true =>
      rw [hterm hall]
      rfl
    | false =>
      exfalso
      obtain ⟨t, _, hlen, hval⟩ := hstep hall
      have := val_lt t
      rw [hlen, hs] at this
      omega
  | succ n ih =>
    intro fuel s hs hn hfuel
    obtain ⟨f, rfl⟩ : ∃ f, fuel = f + 1 := ⟨fuel - 1, by omega⟩
    rw [runIter_succ]
    obtain ⟨hterm, hstep⟩ := next_cases hs hl
    cases hall : RulerState.all s with
    | true =>
      rw [hterm hall]
      have hveq : val s = 2 ^ s.length - 1 := RulerState.val_all_true hall
      rw [hs] at hveq
      rw [show 2 ^ (length - 1) - 1 - val s = 0 by omega]
      rfl
    | false =>
      obtain ⟨t, hnext, hlen, hval⟩ := hstep hall
      rw [hnext]
      show t :: runIter length f t =
        (List.range' (val s + 1) (2 ^ (length - 1) - 1 - val s)).map
          (stateOfVal (length - 1))
      have hvt : val t < 2 ^ (length - 1) := by
        have := val_lt t
        rw [hlen, hs] at this
        exact this
      have hcount : 2 ^ (length - 1) - 1 - val s =
          (2 ^ (length - 1) - 1 - val t) + 1 := by omega
      rw [hcount, List.range'_succ, List.map_cons]
      have htv : stateOfVal (length - 1) (val t) = t := by
        have := stateOfVal_val t
        rw [hlen, hs] at this
        exact this
      rw [show val s + 1 = val t by omega, htv]
      congr 1
      rw [show val t + 1 = val t + 1 by rfl]
      exact ih f t (by rw [hlen, hs]) (by omega) (by omega)

theorem runIter_from_pre {length : Nat} (hl : 2 ≤ length) :
    runIter length (2 ^ length) (List.replicate (length - 2) false) =
      (List.range (2 ^ (length - 1))).map (stateOfVal (length - 1)) := by
  obtain ⟨f, hf⟩ : ∃ f, 2 ^ length = f + 1 :=
    ⟨2 ^ length - 1, (Nat.succ_pred_eq_of_pos (Nat.two_pow_pos length)).symm⟩
  rw [hf, runIter_succ]
  have hnext : RulerState.next (List.replicate (length - 2) false) length =
      some (List.replicate (length - 1) false) := by
    unfold RulerState.next
    rw [if_neg (by simp; omega), if_pos (by simp; omega)]
    congr 1
    rw [show length - 1 - (List.replicate (length - 2) false).length = 1 by
      simp; omega]
    rw [← List.replicate_add]
    congr 1
    omega
  rw [hnext]
  show List.replicate (length - 1) false :: runIter length f
      (List.replicate (length - 1) false) =
    (List.range (2 ^ (length - 1))).map (stateOfVal (length - 1))
  set s₀ : List Bool := List.replicate (length - 1) false with hs₀
  have hlen₀ : s₀.length = length - 1 := by simp [hs₀]
  have hval₀ : val s₀ = 0 := val_replicate_false _
  have hone : (1 : Nat) ≤ 2 ^ (length - 1) := Nat.one_le_two_pow
  have hpowf : 2 ^ (length - 1) ≤ f := by
    have h2p : 2 ^ length = 2 * 2 ^ (length - 1) := by
      rw [← pow_succ']
      congr 1
      omega
    omega
  have hrun := runIter_eq hl (2 ^ (length - 1) - 1) f s₀ hlen₀
    (by rw [hval₀]; simp) (by omega)
  rw [hrun, hval₀]
  have hs0v : stateOfVal (length - 1) 0 = s₀ := by
    have := stateOfVal_val s₀
    rw [hlen₀, hval₀] at this
    exact this
  rw [List.range_eq_range']
  rw [show (2 : Nat) ^ (length - 1) = (2 ^ (length - 1) - 1) + 1 by omega]
  rw [List.range'_succ, List.map_cons, hs0v]
  simp

/-! ## Lemmas about `to_ruler` -/

namespace RulerState

theorem interiorMarks_length (i : Nat) (s : List Bool) :
    (interiorMarks i s).length = s.count true := by
  induction s generalizing i with
  | nil => rfl
  | cons b r ih =>
    cases b <;> simp [interiorMarks, ih, List.count_cons]

theorem mem_interiorMarks (i : Nat) (s : List Bool) (x : GInt) :
    x ∈ interiorMarks i s ↔
      ∃ j, j < s.length ∧ s.getD j false = true ∧ x = (i : Int) + j + 1 := by
  induction s generalizing i with
  | nil => simp [interiorMarks]
  | cons b r ih =>
    cases b
    · rw [show interiorMarks i (false :: r) = interiorMarks (i + 1) r by
        simp [interiorMarks]]
      rw [ih]
      constructor
      · rintro ⟨j, hj, hget, hx⟩
        refine ⟨j + 1, by simpa using hj, by simpa using hget, ?_⟩
        rw [hx]
        push_cast
        ring
      · rintro ⟨j, hj, hget, hx⟩
        cases j with
        | zero => simp at hget
        | succ j =>
          refine ⟨j, by simpa using hj, by simpa using hget, ?_⟩
          rw [hx]
          push_cast
          ring
    · rw [show interiorMarks i (true :: r) =
        ((i : Int) + 1) :: interiorMarks (i + 1) r by simp [interiorMarks]]
      rw [List.mem_cons, ih]
      constructor
      · rintro (hx | ⟨j, hj, hget, hx⟩)
        · exact ⟨0, by simp, by simp, by rw [hx]; push_cast; ring⟩
        · refine ⟨j + 1, by simpa using hj, by simpa using hget, ?_⟩
          rw [hx]
          push_cast
          ring
      · rintro ⟨j, hj, hget, hx⟩
        cases j with
        | zero =>
          left
          rw [hx]
          push_cast
          ring
        | succ j =>
          right
          refine ⟨j, by simpa using hj, by simpa using hget, ?_⟩
          rw [hx]
          push_cast
          ring

theorem interiorMarks_sorted (i : Nat) (s : List Bool) :
    (interiorMarks i s).Sorted (· < ·) ∧
      ∀ x ∈ interiorMarks i s, (i : Int) < x := by
  induction s generalizing i with
  | nil => simp [interiorMarks]
  | cons b r ih =>
    obtain ⟨hsort, hbound⟩ := ih (i + 1)
    cases b
    · rw [show interiorMarks i (false :: r) = interiorMarks (i + 1) r by
        simp [interiorMarks]]
      refine ⟨hsort, fun x hx => ?_⟩
      have := hbound x hx
      push_cast at this ⊢
      omega
    · rw [show interiorMarks i (true :: r) =
        ((i : Int) + 1) :: interiorMarks (i + 1) r by simp [interiorMarks]]
      constructor
      · rw [List.sorted_cons]
        refine ⟨fun x hx => ?_, hsort⟩
        show (i : Int) + 1 < x
        have := hbound x hx
        push_cast at this
        omega
      · intro x hx
        rcases List.mem_cons.mp hx with rfl | hx
        · omega
        · have := hbound x hx
          push_cast at this ⊢
          omega

theorem to_ruler_marks (s : List Bool) :
    (to_ruler s).marks = interiorMarks 0 s ++ [((s.length : Int) + 1)] := rfl

theorem to_ruler_order (s : List Bool) :
    (to_ruler s).order = s.count true + 2 := by
  unfold GolombRuler.order
  rw [to_ruler_marks]
  simp [interiorMarks_length]

theorem to_ruler_length (s : List Bool) :
    (to_ruler s).length = (s.length : Int) + 1 := by
  unfold GolombRuler.length
  rw [to_ruler_marks, List.getLast?_concat]

theorem to_ruler_inj {s₁ s₂ : List Bool} (hlen : s₁.length = s₂.length)
    (h : to_ruler s₁ = to_ruler s₂) : s₁ = s₂ := by
  have hmarks : (to_ruler s₁).marks = (to_ruler s₂).marks := by rw [h]
  rw [to_ruler_marks, to_ruler_marks, hlen] at hmarks
  have hint : interiorMarks 0 s₁ = interiorMarks 0 s₂ :=
    List.append_cancel_right hmarks
  apply List.ext_getElem hlen
  intro j h₁ h₂
  have hiff : ((0 : Nat) : Int) + j + 1 ∈ interiorMarks 0 s₁ ↔
      ((0 : Nat) : Int) + j + 1 ∈ interiorMarks 0 s₂ := by rw [hint]
  rw [mem_interiorMarks, mem_interiorMarks] at hiff
  have hinj : ∀ (s : List Bool), j < s.length →
      ((∃ j', j' < s.length ∧ s.getD j' false = true ∧
        ((0 : Nat) : Int) + j + 1 = ((0 : Nat) : Int) + j' + 1) ↔
        s.getD j false = true) := by
    intro s hj
    constructor
    · rintro ⟨j', hj', hget, heq⟩
      have : j = j' := by
        push_cast at heq
        omega
      rw [this]
      exact hget
    · intro hget
      exact ⟨j, hj, hget, rfl⟩
  rw [hinj s₁ h₁, hinj s₂ h₂] at hiff
  rw [List.getD_eq_getElem _ _ h₁, List.getD_eq_getElem _ _ h₂] at hiff
  rcases hb1 : s₁[j] with _ | _ <;> rcases hb2 : s₂[j] with _ | _
  · rfl
  · rw [hb1, hb2] at hiff
    simp at hiff
  · rw [hb1, hb2] at hiff
    simp at hiff
  · rfl

end RulerState

/-- Value comparison of equal-length states coincides with lexicographic
comparison of the bit vectors (most significant bit first). -/
theorem lex_of_val_lt : ∀ {s t : List Bool}, s.length = t.length →
    val s < val t → List.Lex (· < ·) s t := by
  intro s
  induction s with
  | nil =>
    intro t hlen _
    cases t with
    | nil => omega
    | cons c q => simp at hlen
  | cons b r ih =>
    intro t hlen hval
    cases t with
    | nil => simp at hlen
    | cons c q =>
      simp only [List.length_cons, Nat.add_right_cancel_iff] at hlen
      simp only [val] at hval
      cases b <;> cases c
      · exact List.Lex.cons (ih hlen (by simpa using hval))
      · exact List.Lex.rel (by decide)
      · exfalso
        have h1 := val_lt q
        rw [← hlen] at h1
        simp at hval
        omega
      · refine List.Lex.cons (ih hlen ?_)
        rw [hlen] at hval
        simpa using hval

/-! ## Counting states of a given popcount -/

theorem cnt_two_pow (L : Nat) : cnt (2 ^ L) = 1 := by
  induction L with
  | zero =>
    rw [pow_zero, cnt]
    simp [cnt_zero]
  | succ L ih =>
    rw [pow_succ, mul_comm, cnt_two_mul, ih]

theorem cnt_two_pow_add {L w : Nat} (hw : w < 2 ^ L) :
    cnt (2 ^ L + w) = cnt w + 1 := by
  rw [cnt_add_of_lt (Nat.mod_self _) hw, cnt_two_pow]
  omega

/-- The number of values below `2^L` with popcount `k` is `C(L, k)`. -/
theorem length_filter_cnt (L : Nat) : ∀ k : Nat,
    ((List.range (2 ^ L)).filter (fun v => decide (cnt v = k))).length =
      Nat.choose L k := by
  induction L with
  | zero =>
    intro k
    rw [pow_zero]
    cases k with
    | zero =>
      rw [show List.range 1 = [0] from rfl]
      simp [cnt_zero]
    | succ k =>
      rw [show List.range 1 = [0] from rfl]
      simp [cnt_zero]
  | succ L ih =>
    intro k
    have hsplit : List.range (2 ^ (L + 1)) =
        List.range (2 ^ L) ++ List.range' (2 ^ L) (2 ^ L) := by
      rw [List.range_eq_range', List.range_eq_range']
      have h := List.range'_append 0 (2 ^ L) (2 ^ L) 1
      simp only [Nat.zero_add, Nat.one_mul] at h
      rw [show (2 : Nat) ^ (L + 1) = 2 ^ L + 2 ^ L by rw [pow_succ]; omega]
      exact h.symm
    rw [hsplit, List.filter_append, List.length_append, ih k]
    have hupper : (List.range' (2 ^ L) (2 ^ L)).filter
        (fun v => decide (cnt v = k)) =
        ((List.range (2 ^ L)).filter (fun w => decide (cnt w + 1 = k))).map
          (fun w => 2 ^ L + w) := by
      rw [List.range'_eq_map_range, List.filter_map]
      congr 1
      apply List.filter_congr
      intro w hw
      rw [List.mem_range] at hw
      simp only [Function.comp]
      rw [cnt_two_pow_add hw]
    rw [hupper, List.length_map]
    cases k with
    | zero =>
      have hz : (List.range (2 ^ L)).filter
          (fun w => decide (cnt w + 1 = 0)) = [] := by
        rw [List.filter_eq_nil_iff]
        intro a _
        simp
      rw [hz]
      simp
    | succ k =>
      have hk : (List.range (2 ^ L)).filter (fun w => decide (cnt w + 1 = k + 1)) =
          (List.range (2 ^ L)).filter (fun w => decide (cnt w = k)) := by
        apply List.filter_congr
        intro w _
        simp
      rw [hk, ih k, Nat.choose_succ_succ]
      simp only [Nat.succ_eq_add_one]
      omega

/-- Pairwise value-ordering transfers to pairwise lexicographic ordering of
the canonical states. -/
theorem pairwise_lex_map_stateOfVal {L : Nat} {l : List Nat}
    (hmem : ∀ v ∈ l, v < 2 ^ L) (hp : l.Pairwise (· < ·)) :
    (l.map (stateOfVal L)).Pairwise (List.Lex (· < ·)) := by
  induction l with
  | nil => simp
  | cons a l ih =>
    rw [List.pairwise_cons] at hp
    rw [List.map_cons, List.pairwise_cons]
    refine ⟨?_, ih (fun v hv => hmem v (List.mem_cons_of_mem a hv)) hp.2⟩
    intro b hb
    obtain ⟨w, hw, rfl⟩ := List.mem_map.mp hb
    apply lex_of_val_lt (by rw [length_stateOfVal, length_stateOfVal])
    rw [val_stateOfVal (hmem a (List.mem_cons_self a l)),
      val_stateOfVal (hmem w (List.mem_cons_of_mem a hw))]
    exact hp.1 w hw

/-! ## Facade computations -/

theorem stateOfVal_zero (L : Nat) : stateOfVal L 0 = List.replicate L false := by
  have h := stateOfVal_val (List.replicate L false)
  rw [List.length_replicate, val_replicate_false] at h
  exact h

theorem interiorMarks_replicate_false (i n : Nat) :
    RulerState.interiorMarks i (List.replicate n false) = [] := by
  apply List.eq_nil_of_length_eq_zero
  rw [RulerState.interiorMarks_length, List.count_replicate]
  simp

theorem to_ruler_replicate_false (n : Nat) :
    RulerState.to_ruler (List.replicate n false) = ⟨[((n : Int) + 1)]⟩ := by
  unfold RulerState.to_ruler
  rw [interiorMarks_replicate_false]
  simp

theorem to_ruler_stateOfVal_inj {L v w : Nat} (hv : v < 2 ^ L) (hw : w < 2 ^ L)
    (h : RulerState.to_ruler (stateOfVal L v) =
      RulerState.to_ruler (stateOfVal L w)) : v = w := by
  have heq := RulerState.to_ruler_inj
    (by rw [length_stateOfVal, length_stateOfVal]) h
  calc v = val (stateOfVal L v) := (val_stateOfVal hv).symm
    _ = val (stateOfVal L w) := by rw [heq]
    _ = w := val_stateOfVal hw

theorem enumerate_rulers_with_length_eq {length : Nat} (hl : 2 ≤ length) :
    enumerate_rulers_with_length length =
      some (((List.range (2 ^ (length - 1))).map (stateOfVal (length - 1))).map
        RulerState.to_ruler) := by
  unfold enumerate_rulers_with_length rulerIteratorNew
  rw [if_neg (by omega), if_neg (by omega), if_neg (by omega)]
  rw [Option.map_some']
  rw [runIter_from_pre hl]

theorem enumerate_pruned_rulers_eq {order length : Nat} (ho : order ≠ 2)
    (h2 : 2 ≤ order) (hl : 2 ≤ length) :
    enumerate_pruned_rulers order length =
      some (((kvalsAbove (length - 1) (order - 2) 0).map
        (stateOfVal (length - 1))).map RulerState.to_ruler) := by
  unfold enumerate_pruned_rulers prunedIteratorNew
  rw [if_neg ho, if_neg (by omega)]
  rw [Option.map_some']
  rw [runPruned_from_pre h2 hl]

theorem kvalsAbove_zero_eq {L k : Nat} (hk : 1 ≤ k) :
    kvalsAbove L k 0 =
      (List.range (2 ^ L)).filter (fun v => decide (cnt v = k)) := by
  unfold kvalsAbove
  apply List.filter_congr
  intro v _
  by_cases hc : cnt v = k
  · have hv : 0 < v := by
      rcases Nat.eq_zero_or_pos v with rfl | h
      · rw [cnt_zero] at hc
        omega
      · exact h
    simp [hc, hv]
  · simp [hc]

/-! ## Claim theorems -/

/-- C3: for every `length ≥ 2`, the exhaustive traversal (`RulerIterator`, as
used by `enumerate_rulers_with_length`) yields exactly `2^(length-1)`
distinct rulers — one per subset of the interior positions `1..length-1` —
visiting every possible state exactly once, with no duplicates and no
omissions. -/
theorem claim_C3 (length : Nat) (hl : 2 ≤ length) :
    ∃ out, enumerate_rulers_with_length length = some out ∧
      out.length = 2 ^ (length - 1) ∧ out.Nodup ∧
      ∀ s : List Bool, s.length = length - 1 → RulerState.to_ruler s ∈ out := by
  refine ⟨_, enumerate_rulers_with_length_eq hl, by simp, ?_, ?_⟩
  · rw [List.map_map]
    apply List.Nodup.map_on ?_ (List.nodup_range _)
    intro x hx y hy hxy
    rw [List.mem_range] at hx hy
    exact to_ruler_stateOfVal_inj hx hy hxy
  · intro s hs
    rw [List.map_map, List.mem_map]
    refine ⟨val s, ?_, ?_⟩
    · rw [List.mem_range, ← hs]
      exact val_lt s
    · show RulerState.to_ruler (stateOfVal (length - 1) (val s)) =
        RulerState.to_ruler s
      congr 1
      rw [← hs]
      exact stateOfVal_val s

/-- C3 witness at `length = 3`. -/
theorem claim_C3_witness :
    ∃ out, enumerate_rulers_with_length 3 = some out ∧
      out.length = 2 ^ (3 - 1) ∧ out.Nodup ∧
      ∀ s : List Bool, s.length = 3 - 1 → RulerState.to_ruler s ∈ out :=
  claim_C3 3 (by decide)

/-- C6: for every state that is not all-ones, `backtrack` increments the
state read as a binary counter whose least-significant end is the rightmost
bit (clearing the trailing set bits and setting the first cleared bit), and
the exhaustive traversal signals no next state exactly when every bit is
already set. -/
theorem claim_C6 (s : List Bool) (length : Nat) (hlen : s.length = length - 1)
    (hl : 2 ≤ length) :
    (RulerState.all s = false →
      (RulerState.backtrack s).length = s.length ∧
        val (RulerState.backtrack s) = val s + 1) ∧
    (RulerState.next s length = none ↔ RulerState.all s = true) := by
  obtain ⟨hterm, hstep⟩ := next_cases hlen hl
  constructor
  · intro hall
    exact ⟨RulerState.backtrack_length s, RulerState.backtrack_val hall⟩
  · constructor
    · intro hnone
      cases hall : RulerState.all s with
      | true => rfl
      | false =>
        obtain ⟨t, hsome, _, _⟩ := hstep hall
        rw [hsome] at hnone
        exact absurd hnone (by simp)
    · exact hterm

/-- C6 witness: the state `10` backtracks to value 3 (length preserved), and
the traversal of `length = 3` terminates exactly on the all-ones state. -/
theorem claim_C6_witness :
    ((RulerState.backtrack [true, false]).length = 2 ∧
      val (RulerState.backtrack [true, false]) = val [true, false] + 1) ∧
    (RulerState.next [true, true] 3 = none ↔
      RulerState.all [true, true] = true) :=
  ⟨(claim_C6 [true, false] 3 (by decide) (by decide)).1 (by decide),
    (claim_C6 [true, true] 3 (by decide) (by decide)).2⟩

/-- C1: for every `order ≥ 2` and `length ≥ 2`, the cardinality-pruned
enumeration `enumerate_pruned_rulers` (with `order = 2` special-cased to the
single ruler `[length]`) yields exactly `C(length-1, order-2)` rulers, in
ascending lexicographic order of the interior bit vectors, with no
duplicates and no omissions, and the produced list equals the rulers of the
exhaustive traversal of the same length whose `order()` equals `order`. -/
theorem claim_C1 (order length : Nat) (ho : 2 ≤ order) (hl : 2 ≤ length) :
    ∃ out, enumerate_pruned_rulers order length = some out ∧
      out.length = Nat.choose (length - 1) (order - 2) ∧
      out.Nodup ∧
      (∃ sts : List (List Bool), out = sts.map RulerState.to_ruler ∧
        sts.Pairwise (List.Lex (· < ·))) ∧
      (order = 2 → out = [⟨[(length : Int)]⟩]) ∧
      ∀ exOut, enumerate_rulers_with_length length = some exOut →
        out = exOut.filter (fun r => decide (r.order = order)) := by
  by_cases h2 : order = 2
  · subst h2
    refine ⟨[⟨[(length : Int)]⟩], ?_, by simp, by simp, ?_, fun _ => rfl, ?_⟩
    · unfold enumerate_pruned_rulers
      rw [if_pos rfl]
    · refine ⟨[List.replicate (length - 1) false], ?_, ?_⟩
      · rw [List.map_cons, List.map_nil, to_ruler_replicate_false]
        have : ((length - 1 : Nat) : Int) + 1 = (length : Int) := by
          push_cast [Nat.cast_sub (by omega : 1 ≤ length)]
          ring
        rw [this]
      · simp
    · intro exOut hex
      rw [enumerate_rulers_with_length_eq hl] at hex
      obtain rfl : _ = exOut := by injection hex
      rw [List.map_map, List.filter_map]
      have hfc : (List.range (2 ^ (length - 1))).filter
          ((fun r => decide (r.order = 2)) ∘
            (RulerState.to_ruler ∘ stateOfVal (length - 1))) =
          (List.range (2 ^ (length - 1))).filter
            (fun v => decide (cnt v = 0)) := by
        apply List.filter_congr
        intro v hv
        rw [List.mem_range] at hv
        simp only [Function.comp]
        rw [decide_eq_decide, RulerState.to_ruler_order, count_stateOfVal hv]
        omega
      rw [hfc]
      have hzer : (List.range (2 ^ (length - 1))).filter
          (fun v => decide (cnt v = 0)) = [0] := by
        obtain ⟨f, hf⟩ : ∃ f, 2 ^ (length - 1) = f + 1 :=
          ⟨2 ^ (length - 1) - 1,
            (Nat.succ_pred_eq_of_pos (Nat.two_pow_pos _)).symm⟩
        rw [hf, List.range_eq_range', List.range'_succ]
        rw [List.filter_cons_of_pos (by simp [cnt_zero])]
        have : (List.range' 1 f).filter (fun v => decide (cnt v = 0)) = [] := by
          rw [List.filter_eq_nil_iff]
          intro a ha
          rw [List.mem_range'_1] at ha
          simp only [decide_eq_true_eq]
          rw [cnt_eq_zero]
          omega
        rw [this]
      rw [hzer, List.map_cons, List.map_nil]
      simp only [Function.comp]
      rw [stateOfVal_zero, to_ruler_replicate_false]
      have : ((length - 1 : Nat) : Int) + 1 = (length : Int) := by
        push_cast [Nat.cast_sub (by omega : 1 ≤ length)]
        ring
      rw [this]
  · have hk : 1 ≤ order - 2 := by omega
    refine ⟨_, enumerate_pruned_rulers_eq h2 ho hl, ?_, ?_, ?_, fun h => absurd h h2, ?_⟩
    · rw [kvalsAbove_zero_eq hk]
      rw [List.length_map, List.length_map, length_filter_cnt]
    · rw [List.map_map]
      apply List.Nodup.map_on ?_ ((List.nodup_range _).filter _)
      intro x hx y hy hxy
      have hx' := List.mem_range.mp (List.mem_of_mem_filter hx)
      have hy' := List.mem_range.mp (List.mem_of_mem_filter hy)
      exact to_ruler_stateOfVal_inj hx' hy' hxy
    · refine ⟨(kvalsAbove (length - 1) (order - 2) 0).map
        (stateOfVal (length - 1)), rfl, ?_⟩
      apply pairwise_lex_map_stateOfVal
      · intro v hv
        exact List.mem_range.mp (List.mem_of_mem_filter hv)
      · exact (List.pairwise_lt_range _).filter _
    · intro exOut hex
      rw [enumerate_rulers_with_length_eq hl] at hex
      obtain rfl : _ = exOut := by injection hex
      rw [List.map_map, List.map_map, List.filter_map]
      congr 1
      rw [kvalsAbove_zero_eq hk]
      apply List.filter_congr
      intro v hv
      rw [List.mem_range] at hv
      simp only [Function.comp]
      rw [decide_eq_decide, RulerState.to_ruler_order, count_stateOfVal hv]
      omega

/-- C1 witness at `(order, length) = (3, 4)`. -/
theorem claim_C1_witness :
    ∃ out, enumerate_pruned_rulers 3 4 = some out ∧
      out.length = Nat.choose (4 - 1) (3 - 2) ∧
      out.Nodup ∧
      (∃ sts : List (List Bool), out = sts.map RulerState.to_ruler ∧
        sts.Pairwise (List.Lex (· < ·))) ∧
      (3 = 2 → out = [⟨[(4 : Int)]⟩]) ∧
      ∀ exOut, enumerate_rulers_with_length 4 = some exOut →
        out = exOut.filter (fun r => decide (r.order = 3)) :=
  claim_C1 3 4 (by decide) (by decide)

/-- C7 (code bug): on the state `[true, false]` (ruler length 3) the
membership test `contains` answers `true` for the out-of-range value
`2^64 + 1`: the truncating `as usize` cast wraps the value onto interior
position 1, contradicting the specified behaviour that every value outside
`[0, length]` is absent.  (For other large values, e.g. `2^64 + 3`, the
wrapped index is out of bounds and the source panics.) -/
theorem claim_C7_bug :
    RulerState.contains [true, false] (2 ^ 64 + 1) = some true ∧
      ¬((2 ^ 64 + 1 : Int) ≤ 3) ∧
      RulerState.contains [true, false] (2 ^ 64 + 3) = none := by
  refine ⟨?_, by decide, ?_⟩ <;> decide

/-- C9: the exposed accessor `is_golomb_ruler_order_1` panics on the
degenerate ruler decoded from id 0 — the slice bound `marks.len() - 1`
underflows for an empty marks vector — rather than accepting it, and the
depth-1 check is total for every ruler with at least one mark. -/
theorem claim_C9 :
    (GolombRuler.from_id 0).is_golomb_ruler_order_1 = none ∧
      ∀ r : GolombRuler, r.marks ≠ [] →
        (GolombRuler.is_golomb_ruler_order_1 r).isSome := by
  constructor
  · rfl
  · intro r hr
    unfold GolombRuler.is_golomb_ruler_order_1
    rw [if_neg (by simpa [List.isEmpty_iff] using hr)]
    simp

/-- C9 witness: the one-mark ruler `[0, 1]` is accepted without panic. -/
theorem claim_C9_witness :
    ((GolombRuler.mk [1]).is_golomb_ruler_order_1).isSome :=
  claim_C9.2 ⟨[1]⟩ (by simp)

/-- C10: for every `order ≠ 2` and `length < 2`, `enumerate_pruned_rulers`
panics — the pre-state allocation computes `length - 2` in an unsigned type,
which underflows — and likewise constructing `RulerIterator`,
`GolombRulerPrunedIterator` or `GolombRulerDepthIterator` with `length < 2`
panics; only `enumerate_rulers_with_length` guards lengths 0 and 1 via the
degenerate decode path. -/
theorem claim_C10 (order depth length : Nat) (hlen : length < 2) :
    (order ≠ 2 → enumerate_pruned_rulers order length = none) ∧
      rulerIteratorNew length = none ∧
      prunedIteratorNew order length = none ∧
      depthIteratorNew order length depth = none ∧
      enumerate_golomb_rulers_depth_with_length order length depth = none ∧
      ∀ len : Nat, (enumerate_rulers_with_length len).isSome := by
  refine ⟨?_, ?_, ?_, ?_, ?_, ?_⟩
  · intro ho
    unfold enumerate_pruned_rulers prunedIteratorNew
    rw [if_neg ho, if_pos hlen]
    rfl
  · unfold rulerIteratorNew
    rw [if_pos hlen]
  · unfold prunedIteratorNew
    rw [if_pos hlen]
  · unfold depthIteratorNew
    rw [if_pos hlen]
  · unfold enumerate_golomb_rulers_depth_with_length depthIteratorNew
    rw [if_pos hlen]
    rfl
  · intro len
    unfold enumerate_rulers_with_length
    by_cases h0 : len = 0
    · rw [if_pos h0]
      rfl
    · rw [if_neg h0]
      by_cases h1 : len = 1
      · rw [if_pos h1]
        rfl
      · rw [if_neg h1]
        unfold rulerIteratorNew
        rw [if_neg (by omega)]
        rfl

/-- C10 witness at `(order, depth, length) = (3, 1, 0)`, with the guarded
facade evaluated at lengths 0 and 1. -/
theorem claim_C10_witness :
    enumerate_pruned_rulers 3 0 = none ∧ rulerIteratorNew 0 = none ∧
      prunedIteratorNew 3 0 = none ∧ depthIteratorNew 3 0 1 = none ∧
      enumerate_golomb_rulers_depth_with_length 3 0 1 = none ∧
      (enumerate_rulers_with_length 0).isSome ∧
      (enumerate_rulers_with_length 1).isSome := by
  obtain ⟨h1, h2, h3, h4, h5, h6⟩ := claim_C10 3 1 0 (by decide)
  exact ⟨h1 (by decide), h2, h3, h4, h5, h6 0, h6 1⟩

/-! ## The Golomb verifier: equivalence with distance distinctness -/

theorem insertAll_spec : ∀ (l ds : List GInt),
    ((insertAll ds l).isSome ↔ l.Nodup ∧ ∀ x ∈ l, x ∉ ds) ∧
    (∀ ds', insertAll ds l = some ds' →
      ∀ x, x ∈ ds' ↔ x ∈ l ∨ x ∈ ds) := by
  intro l
  induction l with
  | nil =>
    intro ds
    refine ⟨by simp [insertAll], ?_⟩
    intro ds' h x
    unfold insertAll at h
    injection h with h
    rw [← h]
    simp
  | cons a xs ih =>
    intro ds
    unfold insertAll Ruler.checkInsert
    by_cases hmem : a ∈ ds
    · rw [if_pos hmem]
      refine ⟨by simp [hmem], ?_⟩
      intro ds' h
      exact absurd h (by simp)
    · rw [if_neg hmem]
      obtain ⟨ih1, ih2⟩ := ih (a :: ds)
      constructor
      · rw [ih1, List.nodup_cons]
        constructor
        · rintro ⟨hnd, hall⟩
          have hna : a ∉ xs := by
            intro hax
            have := hall a hax
            simp at this
          refine ⟨⟨hna, hnd⟩, ?_⟩
          intro x hx
          rcases List.mem_cons.mp hx with rfl | hx'
          · exact hmem
          · have := hall x hx'
            rw [List.mem_cons] at this
            tauto
        · rintro ⟨⟨hna, hnd⟩, hall⟩
          refine ⟨hnd, ?_⟩
          intro x hx
          rw [List.mem_cons]
          push_neg
          constructor
          · rintro rfl
            exact hna hx
          · exact hall x (List.mem_cons_of_mem a hx)
      · intro ds' h x
        rw [ih2 ds' h x, List.mem_cons, List.mem_cons]
        tauto

theorem innerLoop_eq_insertAll (lhs : GInt) : ∀ (rest ds : List GInt),
    Ruler.innerLoop lhs ds rest = insertAll ds (rest.map (dist lhs)) := by
  intro rest
  induction rest with
  | nil => intro ds; rfl
  | cons r rs ih =>
    intro ds
    unfold Ruler.innerLoop
    rw [List.map_cons]
    unfold insertAll
    cases Ruler.checkInsert ds (dist lhs r) with
    | none => rfl
    | some ds' => exact ih ds'

theorem insertAll_append : ∀ (l₁ l₂ ds : List GInt),
    insertAll ds (l₁ ++ l₂) =
      match insertAll ds l₁ with
      | none => none
      | some ds' => insertAll ds' l₂ := by
  intro l₁
  induction l₁ with
  | nil => intro l₂ ds; rfl
  | cons x xs ih =>
    intro l₂ ds
    show (match Ruler.checkInsert ds x with
        | none => none
        | some ds' => insertAll ds' (xs ++ l₂)) =
      match (match Ruler.checkInsert ds x with
        | none => none
        | some ds' => insertAll ds' xs) with
      | none => none
      | some ds' => insertAll ds' l₂
    cases Ruler.checkInsert ds x with
    | none => rfl
    | some ds' => exact ih l₂ ds'

theorem outerLoop_eq_insertAll : ∀ (seq ds : List GInt),
    Ruler.outerLoop ds seq = insertAll ds (codeList seq) := by
  intro seq
  induction seq with
  | nil => intro ds; rfl
  | cons lhs rest ih =>
    intro ds
    show (match Ruler.checkInsert ds lhs with
        | none => none
        | some d' =>
          match Ruler.innerLoop lhs d' rest with
          | none => none
          | some d'' => Ruler.outerLoop d'' rest) =
      match Ruler.checkInsert ds lhs with
      | none => none
      | some ds' => insertAll ds' (rest.map (dist lhs) ++ codeList rest)
    cases hc : Ruler.checkInsert ds lhs with
    | none => rfl
    | some ds' =>
      show (match Ruler.innerLoop lhs ds' rest with
          | none => none
          | some d'' => Ruler.outerLoop d'' rest) =
        insertAll ds' (rest.map (dist lhs) ++ codeList rest)
      rw [innerLoop_eq_insertAll, insertAll_append]
      cases insertAll ds' (rest.map (dist lhs)) with
      | none => rfl
      | some ds'' => exact ih ds''

theorem is_golomb_ruler_iff_nodup_codeList (seq : List GInt) :
    Ruler.is_golomb_ruler seq = true ↔ (codeList seq).Nodup := by
  unfold Ruler.is_golomb_ruler
  rw [outerLoop_eq_insertAll]
  have h := (insertAll_spec (codeList seq) []).1
  constructor
  · intro hb
    exact (h.mp hb).1
  · intro hn
    exact h.mpr ⟨hn, by simp⟩

theorem codeList_perm (seq : List GInt) :
    List.Perm (codeList seq) (seq ++ pairDists seq) := by
  induction seq with
  | nil => exact List.Perm.refl _
  | cons x xs ih =>
    show List.Perm (x :: (xs.map (dist x) ++ codeList xs))
      (x :: (xs ++ (xs.map (dist x) ++ pairDists xs)))
    refine List.Perm.cons x ?_
    exact (List.Perm.append_left _ ih).trans
      (List.perm_append_comm_assoc _ _ _)

/-- C4: for every ruler whose marks are a strictly increasing sequence of
positive integers, the Golomb verifier returns true if and only if all
pairwise absolute distances among `{0} ∪ marks` (one entry per pair) are
pairwise distinct; degenerate rulers with at most one mark are accepted, and
`GolombRuler::is_golomb_ruler` delegates to the sequence verifier. -/
theorem claim_C4 (marks : List GInt) (hsort : marks.Sorted (· < ·))
    (hpos : ∀ m ∈ marks, 0 < m) :
    (Ruler.is_golomb_ruler marks = true ↔
      (pairDists ((0 : Int) :: marks)).Nodup) ∧
    (marks.length ≤ 1 → Ruler.is_golomb_ruler marks = true) ∧
    (∀ r : GolombRuler, r.is_golomb_ruler = Ruler.is_golomb_ruler r.marks) := by
  have hmap : marks.map (dist 0) = marks := by
    have hdm : ∀ m ∈ marks, dist 0 m = m := by
      intro m hm
      have h : (0 : Int) < m := hpos m hm
      show |(0 : Int) - m| = m
      have hle : (0 : Int) - m ≤ 0 := by omega
      rw [abs_of_nonpos hle]
      omega
    rw [List.map_congr_left hdm]
    simp
  have hmain : Ruler.is_golomb_ruler marks = true ↔
      (pairDists ((0 : Int) :: marks)).Nodup := by
    rw [is_golomb_ruler_iff_nodup_codeList]
    rw [List.Perm.nodup_iff (codeList_perm marks)]
    show (marks ++ pairDists marks).Nodup ↔ _
    rw [show pairDists ((0 : Int) :: marks) =
      marks.map (dist 0) ++ pairDists marks from rfl]
    rw [hmap]
  refine ⟨hmain, ?_, fun r => rfl⟩
  intro hlen
  rw [hmain]
  cases marks with
  | nil => simp [pairDists]
  | cons m tail =>
    cases tail with
    | nil => simp [pairDists]
    | cons m' tail' => simp at hlen

/-- C4 witness on the Golomb ruler `[0, 1, 3, 7]`. -/
theorem claim_C4_witness :
    (Ruler.is_golomb_ruler [1, 3, 7] = true ↔
      (pairDists ((0 : Int) :: [1, 3, 7])).Nodup) ∧
    (([1, 3, 7] : List GInt).length ≤ 1 →
      Ruler.is_golomb_ruler [1, 3, 7] = true) ∧
    (∀ r : GolombRuler, r.is_golomb_ruler = Ruler.is_golomb_ruler r.marks) :=
  claim_C4 [1, 3, 7] (by decide) (by decide)

/-! ## The ruler/id bijection -/

theorem castUsize_natCast {n : Nat} (h : n < 2 ^ 64) :
    castUsize (n : Int) = n := by
  unfold castUsize
  rw [Int.emod_eq_of_lt (by positivity) (by exact_mod_cast h)]
  simp

theorem getD_eq_false_of_le {s : List Bool} {j : Nat} (h : s.length ≤ j) :
    s.getD j false = false := by
  rw [List.getD_eq_getElem?_getD, List.getElem?_eq_none (by omega)]
  rfl

theorem foldlM_setMark {st0 : List Bool} (hlen : st0.length < 2 ^ 64) :
    ∀ (ms : List GInt), (∀ m ∈ ms, ∃ j : Nat, j < st0.length ∧ m = (j : Int) + 1) →
    ∃ st', ms.foldlM GolombRuler.setMark st0 = some st' ∧
      st'.length = st0.length ∧
      ∀ j, st'.getD j false =
        (st0.getD j false || decide ((j : Int) + 1 ∈ ms)) := by
  intro ms
  induction ms generalizing st0 with
  | nil =>
    intro _
    refine ⟨st0, rfl, rfl, ?_⟩
    intro j
    simp
  | cons m ms ih =>
    intro hms
    obtain ⟨j₀, hj₀, rfl⟩ := hms m (List.mem_cons_self m ms)
    have hcast : castUsize ((j₀ : Int) + 1) = j₀ + 1 := by
      rw [show ((j₀ : Int) + 1) = ((j₀ + 1 : Nat) : Int) by push_cast; ring]
      exact castUsize_natCast (by omega)
    have hstep : GolombRuler.setMark st0 ((j₀ : Int) + 1) =
        some (st0.set j₀ true) := by
      unfold GolombRuler.setMark
      rw [hcast]
      rw [if_neg (by omega), if_pos (by simpa using hj₀)]
      simp
    rw [List.foldlM_cons, hstep]
    have hlen1 : (st0.set j₀ true).length < 2 ^ 64 := by
      rw [List.length_set]
      exact hlen
    obtain ⟨st', hrun, hlen', hget⟩ := ih hlen1 (by
      intro m hm
      obtain ⟨j, hj, hmj⟩ := hms m (List.mem_cons_of_mem _ hm)
      exact ⟨j, by simpa [List.length_set] using hj, hmj⟩)
    refine ⟨st', by simpa using hrun, by simpa [List.length_set] using hlen', ?_⟩
    intro j
    rw [hget j]
    have hset : (st0.set j₀ true).getD j false =
        if j₀ = j then true else st0.getD j false := by
      by_cases hj : j < st0.length
      · rw [List.getD_eq_getElem _ _ (by simpa [List.length_set] using hj),
          List.getElem_set]
        by_cases he : j₀ = j
        · rw [if_pos he, if_pos he]
        · rw [if_neg he, if_neg he, List.getD_eq_getElem _ _ hj]
      · have h1 : (st0.set j₀ true).getD j false = false :=
          getD_eq_false_of_le (by simpa [List.length_set] using Nat.le_of_not_lt hj)
        have h2 : st0.getD j false = false :=
          getD_eq_false_of_le (Nat.le_of_not_lt hj)
        rw [h1, h2, if_neg (by omega)]
    rw [hset]
    have hmem : ((j : Int) + 1 ∈ ((j₀ : Int) + 1) :: ms) ↔
        (j₀ = j ∨ (j : Int) + 1 ∈ ms) := by
      rw [List.mem_cons]
      constructor
      · rintro (h | h)
        · left; omega
        · right; exact h
      · rintro (h | h)
        · left; omega
        · right; exact h
    by_cases he : j₀ = j
    · simp [he, hmem]
    · simp only [if_neg he]
      congr 1
      rw [decide_eq_decide, hmem]
      tauto

theorem to_state_to_ruler {st : List Bool} (h : st.length < 2 ^ 64) :
    (RulerState.to_ruler st).to_state = some st := by
  unfold GolombRuler.to_state
  by_cases h0 : st = []
  · subst h0
    rw [if_pos (Or.inr (by rw [RulerState.to_ruler_length]; simp))]
  · have hn : 0 < st.length := List.length_pos.mpr h0
    have hcond : ¬((RulerState.to_ruler st).order = 1 ∨
        (RulerState.to_ruler st).length = 1) := by
      push_neg
      rw [RulerState.to_ruler_order, RulerState.to_ruler_length]
      constructor
      · omega
      · intro hc
        have hc' : (st.length : Int) + 1 = 1 := hc
        have hz : (st.length : Int) = 0 := by omega
        have : st.length = 0 := by exact_mod_cast hz
        omega
    rw [if_neg hcond]
    have hdrop : (RulerState.to_ruler st).marks.dropLast =
        RulerState.interiorMarks 0 st := by
      rw [RulerState.to_ruler_marks, List.dropLast_concat]
    have hlm1 : (RulerState.to_ruler st).length - 1 = ((st.length : Nat) : Int) := by
      rw [RulerState.to_ruler_length]
      ring
    rw [hdrop, hlm1, castUsize_natCast h]
    have hrep : (List.replicate st.length false).length < 2 ^ 64 := by
      simpa using h
    obtain ⟨st', hrun, hlen', hget⟩ :=
      foldlM_setMark hrep (RulerState.interiorMarks 0 st) (by
        intro m hm
        rw [RulerState.mem_interiorMarks] at hm
        obtain ⟨j, hj, hgj, hmj⟩ := hm
        refine ⟨j, by simpa using hj, ?_⟩
        rw [hmj]
        push_cast
        ring)
    rw [hrun]
    congr 1
    have hlen'' : st'.length = st.length := by simpa using hlen'
    apply List.ext_getElem hlen''
    intro j h₁ h₂
    have hj : j < st.length := h₂
    have hmem : ((j : Int) + 1 ∈ RulerState.interiorMarks 0 st) ↔
        st.getD j false = true := by
      rw [RulerState.mem_interiorMarks]
      constructor
      · rintro ⟨j', hj', hgj', heq⟩
        have heq' : (j : Int) + 1 = ((0 : Nat) : Int) + j' + 1 := heq
        have hjj : j = j' := by
          push_cast at heq'
          omega
        rw [hjj]
        exact hgj'
      · intro hgj
        refine ⟨j, hj, hgj, ?_⟩
        push_cast
        ring
    have hrepl : (List.replicate st.length false).getD j false = false := by
      rw [List.getD_eq_getElem _ _ (by simpa using hj)]
      simp
    have hj' := hget j
    rw [hrepl, Bool.false_or] at hj'
    rw [← List.getD_eq_getElem st' false h₁, ← List.getD_eq_getElem st false h₂,
      hj']
    cases hb : st.getD j false
    · have hnm : ¬((j : Int) + 1 ∈ RulerState.interiorMarks 0 st) := by
        rw [hmem, hb]
        simp
      simp [hnm]
    · have hin : (j : Int) + 1 ∈ RulerState.interiorMarks 0 st := hmem.mpr hb
      simp [hin]

theorem range_filter_getD_cons (b : Bool) (r : List Bool) :
    (List.range (b :: r).length).filter (fun j => (b :: r).getD j false) =
      (if b then [0] else []) ++
        ((List.range r.length).filter (fun j => r.getD j false)).map
          Nat.succ := by
  rw [show (b :: r).length = r.length + 1 from rfl, List.range_succ_eq_map,
    List.filter_cons, List.filter_map]
  have hc : ((fun j => (b :: r).getD j false) ∘ Nat.succ) =
      (fun j => r.getD j false) := by
    funext j
    simp [Function.comp, List.getD_cons_succ]
  rw [hc]
  cases b <;> simp

theorem interiorMarks_eq_map : ∀ (s : List Bool) (i : Nat),
    RulerState.interiorMarks i s =
      ((List.range s.length).filter (fun j => s.getD j false)).map
        (fun j => ((i + j : Nat) : Int) + 1) := by
  intro s
  induction s with
  | nil => intro i; rfl
  | cons b r ih =>
    intro i
    rw [range_filter_getD_cons, List.map_append, List.map_map]
    have hfun : ((fun j => ((i + j : Nat) : Int) + 1) ∘ Nat.succ) =
        (fun j => ((i + 1 + j : Nat) : Int) + 1) := by
      funext j
      simp only [Function.comp, Nat.succ_eq_add_one]
      congr 2
      omega
    rw [hfun, ← ih (i + 1)]
    cases b
    · rw [show RulerState.interiorMarks i (false :: r) =
        RulerState.interiorMarks (i + 1) r by simp [RulerState.interiorMarks]]
      simp
    · rw [show RulerState.interiorMarks i (true :: r) =
        ((i : Int) + 1) :: RulerState.interiorMarks (i + 1) r by
          simp [RulerState.interiorMarks]]
      simp

theorem sum_pow_filter : ∀ s : List Bool,
    ((((List.range s.length).filter (fun j => s.getD j false))).map
      (fun j => 2 ^ j)).sum = valRev s := by
  intro s
  induction s with
  | nil => rfl
  | cons b r ih =>
    rw [range_filter_getD_cons, List.map_append, List.map_map, List.sum_append]
    have hfun : ((fun j : Nat => (2 : Nat) ^ j) ∘ Nat.succ) =
        (fun j => 2 * 2 ^ j) := by
      funext j
      simp [Function.comp, pow_succ, Nat.succ_eq_add_one]
      ring
    rw [hfun]
    rw [List.sum_map_mul_left ((List.range r.length).filter
      (fun j => r.getD j false)) (fun j => (2 : Nat) ^ j) 2]
    rw [ih]
    cases b <;> simp [valRev] <;> omega

theorem foldlM_idStep (st : List Bool) (hst : st.length < 64) :
    ∀ (js : List Nat) (acc : Nat),
      (∀ j ∈ js, j < st.length) → (∀ j ∈ js, st.getD j false = true) →
      acc + (js.map (fun j => 2 ^ j)).sum < 2 ^ 64 →
      (js.map (fun j => ((j : Nat) : Int) + 1)).foldlM
          (GolombRuler.idStep st) acc =
        some (acc + (js.map (fun j => 2 ^ j)).sum) := by
  intro js
  induction js with
  | nil =>
    intro acc _ _ _
    simp [List.foldlM_nil]
  | cons j js ih =>
    intro acc hlt hbit hbound
    simp only [List.map_cons, List.sum_cons] at hbound
    have hj : j < st.length := hlt j (List.mem_cons_self j js)
    have hget : st.get ⟨j, hj⟩ = true := by
      rw [List.get_eq_getElem, ← List.getD_eq_getElem st false hj]
      exact hbit j (List.mem_cons_self j js)
    have hm1 : ((j : Int) + 1 - 1) = ((j : Nat) : Int) := by ring
    have hstep : GolombRuler.idStep st acc ((j : Int) + 1) =
        some (acc + 2 ^ j) := by
      unfold GolombRuler.idStep
      simp only [hm1, castUsize_natCast (show j < 2 ^ 64 by omega),
        Int.toNat_natCast]
      have hrange : ¬(((j : Nat) : Int) < 0 ∨ 64 ≤ ((j : Nat) : Int)) := by
        omega
      have hov : ¬(2 ^ 64 ≤ acc + 2 ^ j) := by omega
      rw [dif_pos hj, if_pos hget, if_neg hrange, if_neg hov]
    rw [List.map_cons, List.foldlM_cons, hstep]
    have hbind : ∀ (x : Nat) (g : Nat → Option Nat), (some x >>= g) = g x :=
      fun _ _ => rfl
    rw [hbind]
    rw [ih (acc + 2 ^ j) (fun i hi => hlt i (List.mem_cons_of_mem _ hi))
      (fun i hi => hbit i (List.mem_cons_of_mem _ hi)) (by omega)]
    congr 1
    simp only [List.map_cons, List.sum_cons]
    omega

theorem to_id_to_ruler {st : List Bool} (h1 : 1 ≤ st.length)
    (h63 : st.length ≤ 63) :
    (RulerState.to_ruler st).to_id = some (2 ^ st.length + valRev st) := by
  have hlen : (RulerState.to_ruler st).length = (st.length : Int) + 1 :=
    RulerState.to_ruler_length st
  have hmarksne : ¬((RulerState.to_ruler st).marks = []) := by
    rw [RulerState.to_ruler_marks]
    simp
  have hc1 : ¬((RulerState.to_ruler st).length = 1) := by
    rw [hlen]
    intro hc
    have hc' : (st.length : Int) + 1 = 1 := hc
    omega
  have hc2 : ¬((64 : Int) < (RulerState.to_ruler st).length) := by
    rw [hlen]
    intro hc
    have hc' : (64 : Int) < (st.length : Int) + 1 := hc
    omega
  have hc3 : ¬((RulerState.to_ruler st).length ≤ 0) := by
    rw [hlen]
    intro hc
    have hc' : (st.length : Int) + 1 ≤ 0 := hc
    omega
  unfold GolombRuler.to_id
  rw [if_neg hmarksne, if_neg hc1, if_neg hc2, if_neg hc3]
  simp only [to_state_to_ruler (show st.length < 2 ^ 64 by omega)]
  have hexp : ((RulerState.to_ruler st).length - 1).toNat = st.length := by
    rw [hlen, show ((st.length : Int) + 1 - 1) = ((st.length : Nat) : Int)
      by ring, Int.toNat_natCast]
  rw [hexp, RulerState.to_ruler_marks, List.dropLast_concat,
    interiorMarks_eq_map]
  simp only [Nat.zero_add]
  have hsum := sum_pow_filter st
  have hvlt := valRev_lt st
  have hmemlt : ∀ j ∈ (List.range st.length).filter
      (fun j => st.getD j false), j < st.length := by
    intro j hj
    exact List.mem_range.mp (List.mem_of_mem_filter hj)
  have hmemtrue : ∀ j ∈ (List.range st.length).filter
      (fun j => st.getD j false), st.getD j false = true := by
    intro j hj
    simpa using List.of_mem_filter hj
  have hdouble : (2 : Nat) ^ (st.length + 1) ≤ 2 ^ 64 :=
    Nat.pow_le_pow_right (by norm_num) (by omega)
  have hbnd : 2 ^ st.length +
      (((List.range st.length).filter (fun j => st.getD j false)).map
        (fun j => 2 ^ j)).sum < 2 ^ 64 := by
    rw [hsum, pow_succ] at *
    omega
  rw [foldlM_idStep st (by omega)
    ((List.range st.length).filter (fun j => st.getD j false))
    (2 ^ st.length) hmemlt hmemtrue hbnd, hsum]

theorem from_id_pow {L vr : Nat} (hL : 1 ≤ L) (hvr : vr < 2 ^ L) :
    GolombRuler.from_id (2 ^ L + vr) =
      RulerState.to_ruler (stateOfValRev L vr) := by
  have h2 : 2 ≤ 2 ^ L := by
    calc 2 = 2 ^ 1 := rfl
    _ ≤ 2 ^ L := Nat.pow_le_pow_right (by norm_num) hL
  have hne0 : ¬(2 ^ L + vr = 0) := by omega
  have hne1 : ¬(2 ^ L + vr = 1) := by omega
  unfold GolombRuler.from_id
  rw [if_neg hne0, if_neg hne1]
  have hlog : Nat.log2 (2 ^ L + vr) = L := by
    rw [Nat.log2_eq_log_two]
    refine Nat.log_eq_of_pow_le_of_lt_pow (by omega) ?_
    rw [pow_succ]
    omega
  rw [hlog]
  congr 1
  unfold stateOfValRev
  refine List.map_congr_left ?_
  intro i hi
  have hiL : i < L := List.mem_range.mp hi
  have hmod : (2 ^ L + vr) % 2 ^ L = vr := by
    rw [Nat.add_mod_left, Nat.mod_eq_of_lt hvr]
  calc (2 ^ L + vr).testBit i
      = ((2 ^ L + vr) % 2 ^ L).testBit i := by
        rw [Nat.testBit_mod_two_pow]
        simp [hiL]
    _ = vr.testBit i := by rw [hmod]

theorem to_id_from_id {id : Nat} (h : id < 2 ^ 64) :
    (GolombRuler.from_id id).to_id = some id := by
  by_cases h0 : id = 0
  · subst h0
    rfl
  by_cases h1 : id = 1
  · subst h1
    rfl
  have h2 : 2 ≤ id := by omega
  have hpow : 2 ^ Nat.log2 id ≤ id := Nat.log2_self_le h0
  have hlt : id < 2 ^ (Nat.log2 id + 1) := Nat.lt_log2_self
  have hL1 : 1 ≤ Nat.log2 id := by
    rcases Nat.eq_zero_or_pos (Nat.log2 id) with hz | hp
    · rw [hz] at hlt
      norm_num at hlt
      omega
    · exact hp
  have hL63 : Nat.log2 id ≤ 63 :=
    Nat.lt_succ_iff.mp ((Nat.log2_lt h0).mpr h)
  obtain ⟨vr, hvr, hid⟩ : ∃ vr, vr < 2 ^ Nat.log2 id ∧
      id = 2 ^ Nat.log2 id + vr := by
    refine ⟨id - 2 ^ Nat.log2 id, ?_, by omega⟩
    rw [pow_succ] at hlt
    omega
  obtain ⟨L, hLdef⟩ : ∃ L, Nat.log2 id = L := ⟨_, rfl⟩
  rw [hLdef] at hvr hid hL1 hL63
  rw [hid, from_id_pow hL1 hvr,
    to_id_to_ruler (by rw [length_stateOfValRev]; exact hL1)
      (by rw [length_stateOfValRev]; exact hL63),
    length_stateOfValRev, valRev_stateOfValRev, Nat.mod_eq_of_lt hvr]

theorem valid_eq_to_ruler {r : GolombRuler} (hv : ValidMarks r)
    (hne : r.marks ≠ []) (hgt : (1 : Int) < r.length) :
    ∃ st : List Bool, r = RulerState.to_ruler st ∧
      (st.length : Int) + 1 = (r.length : Int) := by
  have hgtI : (1 : Int) < (r.length : Int) := hgt
  obtain ⟨Lp, hLp⟩ : ∃ Lp : Nat, (Lp : Int) = (r.length : Int) - 1 :=
    ⟨((r.length : Int) - 1).toNat, Int.toNat_of_nonneg (by omega)⟩
  obtain ⟨st, hstdef⟩ : ∃ st : List Bool, st =
      (List.range Lp).map (fun j : Nat => decide ((((j : Nat) : Int) + 1) ∈ r.marks)) :=
    ⟨_, rfl⟩
  have hstlen : st.length = Lp := by
    rw [hstdef]
    simp
  have hgetD : ∀ j, j < Lp →
      (st.getD j false = true ↔ ((j : Int) + 1) ∈ r.marks) := by
    intro j hj
    subst hstdef
    rw [List.getD_eq_getElem _ _ (by simpa using hj), List.getElem_map,
      List.getElem_range]
    simp
  have hsorted := hv.1
  have hpos := hv.2
  have hcat : r.marks.dropLast ++ [r.marks.getLast hne] = r.marks :=
    List.dropLast_append_getLast hne
  have hlastI : (r.length : Int) = r.marks.getLast hne := by
    unfold GolombRuler.length
    rw [List.getLast?_eq_getLast r.marks hne]
  have hpair : List.Pairwise (· < ·)
      (r.marks.dropLast ++ [r.marks.getLast hne]) := by
    rw [hcat]
    exact hsorted
  have hbound : ∀ a ∈ r.marks.dropLast, a < r.marks.getLast hne := by
    intro a ha
    exact (List.pairwise_append.mp hpair).2.2 a ha _
      (List.mem_singleton_self _)
  have hA : ∀ x : Int, x ∈ RulerState.interiorMarks 0 st ↔
      (x ∈ r.marks ∧ x < (r.length : Int)) := by
    intro x
    rw [RulerState.mem_interiorMarks]
    constructor
    · rintro ⟨j, hj, hget, hx⟩
      rw [hstlen] at hj
      have hxm : ((j : Int) + 1) ∈ r.marks := (hgetD j hj).mp hget
      have hx' : x = (j : Int) + 1 := by
        rw [hx]
        push_cast
        ring
      refine ⟨hx' ▸ hxm, ?_⟩
      omega
    · rintro ⟨hxm, hxlt⟩
      have hx1 : (0 : Int) < x := hpos x hxm
      obtain ⟨j, hjx⟩ : ∃ j : Nat, (j : Int) = x - 1 :=
        ⟨(x - 1).toNat, Int.toNat_of_nonneg (by omega)⟩
      refine ⟨j, by rw [hstlen]; omega,
        (hgetD j (by omega)).mpr ((show x = (j : Int) + 1 by omega) ▸ hxm), ?_⟩
      show x = ((0 : Nat) : Int) + ((j : Nat) : Int) + 1
      push_cast
      omega
  have hB : ∀ x : Int, x ∈ r.marks.dropLast ↔
      (x ∈ r.marks ∧ x < (r.length : Int)) := by
    intro x
    constructor
    · intro hx
      refine ⟨by rw [← hcat]; exact List.mem_append_left _ hx, ?_⟩
      have h1 : x < (r.marks.getLast hne : Int) := hbound x hx
      rw [hlastI]
      exact h1
    · rintro ⟨hxm, hxlt⟩
      rw [← hcat] at hxm
      rcases List.mem_append.mp hxm with h | h
      · exact h
      · exfalso
        have hx : x = r.marks.getLast hne := List.mem_singleton.mp h
        rw [hlastI, ← hx] at hxlt
        exact lt_irrefl x hxlt
  have hs1 : (RulerState.interiorMarks 0 st).Sorted (· < ·) :=
    (RulerState.interiorMarks_sorted 0 st).1
  have hs2 : (r.marks.dropLast).Sorted (· < ·) :=
    (List.pairwise_append.mp hpair).1
  have hperm : (RulerState.interiorMarks 0 st).Perm r.marks.dropLast :=
    (List.perm_ext_iff_of_nodup hs1.nodup hs2.nodup).mpr
      (fun x => (hA x).trans ((hB x).symm))
  have heq : RulerState.interiorMarks 0 st = r.marks.dropLast :=
    List.eq_of_perm_of_sorted hperm hs1 hs2
  have hmarks : (RulerState.to_ruler st).marks = r.marks := by
    rw [RulerState.to_ruler_marks, heq,
      show ((st.length : Int) + 1) = r.marks.getLast hne by
        rw [hstlen, hLp, hlastI]
        exact Int.sub_add_cancel _ _]
    exact hcat
  refine ⟨st, ?_, by rw [hstlen]; omega⟩
  calc r = ⟨r.marks⟩ := rfl
    _ = ⟨(RulerState.to_ruler st).marks⟩ := by rw [hmarks]
    _ = RulerState.to_ruler st := rfl

theorem valid_length_one {r : GolombRuler} (hv : ValidMarks r)
    (hne : r.marks ≠ []) (h1 : r.length = (1 : GInt)) : r.marks = [1] := by
  have hcat : r.marks.dropLast ++ [r.marks.getLast hne] = r.marks :=
    List.dropLast_append_getLast hne
  have hlastI : (r.length : Int) = r.marks.getLast hne := by
    unfold GolombRuler.length
    rw [List.getLast?_eq_getLast r.marks hne]
  have hgl1 : r.marks.getLast hne = (1 : GInt) := by
    rw [← hlastI]
    exact h1
  have hpair : List.Pairwise (· < ·)
      (r.marks.dropLast ++ [r.marks.getLast hne]) := by
    rw [hcat]
    exact hv.1
  have hnil : r.marks.dropLast = [] := by
    rw [List.eq_nil_iff_forall_not_mem]
    intro a ha
    have halt : a < r.marks.getLast hne :=
      (List.pairwise_append.mp hpair).2.2 a ha _ (List.mem_singleton_self _)
    have hapos : (0 : Int) < a :=
      hv.2 a (by rw [← hcat]; exact List.mem_append_left _ ha)
    rw [hgl1] at halt
    have h2 : (1 : Int) ≤ a := by
      have := Int.add_one_le_iff.mpr hapos
      simpa using this
    exact absurd halt (not_lt.mpr h2)
  rw [← hcat, hnil, List.nil_append, hgl1]

/-- C8: for every ruler whose marks form a strictly increasing sequence of
positive integers, `to_id` returns `none` exactly when the ruler's length
exceeds 64; within the representable range it always returns `some` id. -/
theorem claim_C8 (r : GolombRuler) (hv : ValidMarks r) :
    r.to_id = none ↔ (64 : Int) < r.length := by
  by_cases hne : r.marks = []
  · have hsome : r.to_id = some 0 := by
      unfold GolombRuler.to_id
      rw [if_pos hne]
    have hlen0 : (r.length : Int) = 0 := by
      unfold GolombRuler.length
      rw [hne]
      rfl
    constructor
    · intro hc
      rw [hsome] at hc
      exact Option.noConfusion hc
    · intro hc
      rw [hlen0] at hc
      omega
  · have hlastI : (r.length : Int) = r.marks.getLast hne := by
      unfold GolombRuler.length
      rw [List.getLast?_eq_getLast r.marks hne]
    have hlpos : (0 : Int) < (r.length : Int) := by
      rw [hlastI]
      exact hv.2 _ (List.getLast_mem hne)
    by_cases h64 : (64 : Int) < r.length
    · have hne1 : ¬(r.length = (1 : GInt)) := by
        intro hc
        rw [hc] at h64
        norm_num at h64
      have hnone : r.to_id = none := by
        unfold GolombRuler.to_id
        rw [if_neg hne, if_neg hne1, if_pos h64]
      rw [hnone]
      simp [h64]
    · rcases lt_or_le (1 : Int) (r.length : Int) with hgt | hle
      · obtain ⟨st, hr, hstl⟩ := valid_eq_to_ruler hv hne hgt
        have h64' : (r.length : Int) ≤ 64 := not_lt.mp h64
        have hb1 : 1 ≤ st.length := by omega
        have hb63 : st.length ≤ 63 := by omega
        constructor
        · intro hc
          rw [hr, to_id_to_ruler hb1 hb63] at hc
          exact Option.noConfusion hc
        · intro hc
          exact absurd hc h64
      · have h1le : (1 : Int) ≤ (r.length : Int) := by omega
        have h1eq : r.length = (1 : GInt) := le_antisymm hle h1le
        have hsome : r.to_id = some 1 := by
          unfold GolombRuler.to_id
          rw [if_neg hne, if_pos h1eq]
        constructor
        · intro hc
          rw [hsome] at hc
          exact Option.noConfusion hc
        · intro hc
          exact absurd hc h64

theorem claim_C8_witness :
    ValidMarks ⟨[1, 3, 7]⟩ ∧
      ((⟨[1, 3, 7]⟩ : GolombRuler).to_id = none ↔
        (64 : Int) < (⟨[1, 3, 7]⟩ : GolombRuler).length) :=
  ⟨⟨by decide, by decide⟩, claim_C8 ⟨[1, 3, 7]⟩ ⟨by decide, by decide⟩⟩

/-- C2: decoding inverts encoding — every ruler with strictly increasing
positive marks and length at most 64 is recovered by `from_id` from its
`to_id`; encoding inverts decoding — every id below `2 ^ 64` is recovered by
`to_id` from its `from_id`; id 0 decodes to the empty (order-1) ruler and
id 1 decodes to the ruler with marks `[1]`. -/
theorem claim_C2 :
    (∀ r : GolombRuler, ValidMarks r → (r.length : Int) ≤ 64 →
        ∃ id : Nat, r.to_id = some id ∧ GolombRuler.from_id id = r) ∧
    (∀ id : Nat, id < 2 ^ 64 → (GolombRuler.from_id id).to_id = some id) ∧
    (GolombRuler.from_id 0).marks = [] ∧ (GolombRuler.from_id 0).order = 1 ∧
    (GolombRuler.from_id 1).marks = [1] := by
  refine ⟨?_, fun id h => to_id_from_id h, rfl, rfl, rfl⟩
  intro r hv h64
  by_cases hne : r.marks = []
  · refine ⟨0, ?_, ?_⟩
    · unfold GolombRuler.to_id
      rw [if_pos hne]
    · calc GolombRuler.from_id 0 = ⟨[]⟩ := rfl
        _ = ⟨r.marks⟩ := by rw [hne]
        _ = r := rfl
  · have hlastI : (r.length : Int) = r.marks.getLast hne := by
      unfold GolombRuler.length
      rw [List.getLast?_eq_getLast r.marks hne]
    have hlpos : (0 : Int) < (r.length : Int) := by
      rw [hlastI]
      exact hv.2 _ (List.getLast_mem hne)
    have h64I : (65 : Int) > r.length := lt_of_le_of_lt h64 (by norm_num)
    rcases lt_or_le (1 : Int) (r.length : Int) with hgt | hle
    · obtain ⟨st, hr, hstl⟩ := valid_eq_to_ruler hv hne hgt
      have hb1 : 1 ≤ st.length := by omega
      have hb63 : st.length ≤ 63 := by omega
      refine ⟨2 ^ st.length + valRev st, ?_, ?_⟩
      · rw [hr]
        exact to_id_to_ruler hb1 hb63
      · rw [from_id_pow hb1 (valRev_lt st), stateOfValRev_valRev]
        exact hr.symm
    · have h1le : (1 : Int) ≤ (r.length : Int) := by omega
      have h1eq : r.length = (1 : GInt) := le_antisymm hle h1le
      have hm1 : r.marks = [1] := valid_length_one hv hne h1eq
      refine ⟨1, ?_, ?_⟩
      · unfold GolombRuler.to_id
        rw [if_neg hne, if_pos h1eq]
      · calc GolombRuler.from_id 1 = ⟨[1]⟩ := rfl
          _ = ⟨r.marks⟩ := by rw [hm1]
          _ = r := rfl

/-! ## The depth-1 partial check -/

theorem contains_eq (s : List Bool) (value : GInt) :
    RulerState.contains s value =
      (if value < 0 then some false
      else if value = 0 ∨ value = ((s.length + 1 : Nat) : Int) then some true
      else if (s.length + 1) < castUsize value then some false
      else if h : castUsize (value - 1) < s.length then
        some (s.get ⟨castUsize (value - 1), h⟩)
      else none) := rfl

theorem contains_range {s : List Bool} (hlen : s.length < 2 ^ 64) {n : Nat}
    (h1 : 1 ≤ n) (h2 : n ≤ s.length) :
    RulerState.contains s ((n : Nat) : Int) = some (s.getD (n - 1) false) := by
  rw [contains_eq]
  have hn64 : n < 2 ^ 64 := by omega
  have hc1 : ¬(((n : Nat) : Int) < 0) := by omega
  have hc2 : ¬(((n : Nat) : Int) = 0 ∨
      ((n : Nat) : Int) = ((s.length + 1 : Nat) : Int)) := by
    push_neg
    constructor <;> · intro hc; omega
  have hsub : (((n : Nat) : Int) - 1) = ((n - 1 : Nat) : Int) := by omega
  rw [if_neg hc1, if_neg hc2]
  rw [castUsize_natCast hn64, if_neg (by omega), hsub,
    castUsize_natCast (by omega)]
  rw [dif_pos (show n - 1 < s.length by omega)]
  rw [List.get_eq_getElem, List.getD_eq_getElem s false (by omega)]

theorem order1Loop_cons (s : List Bool) (base m : GInt) (ms : List GInt) :
    RulerState.order1Loop s base (m :: ms) =
      match RulerState.contains s (dist m base) with
      | none => none
      | some true => some false
      | some false => RulerState.order1Loop s base ms := rfl

theorem order1Loop_total {s : List Bool} (hlen : s.length < 2 ^ 64)
    (base : GInt) : ∀ ms : List GInt,
    (∀ m ∈ ms, ∃ n : Nat, 1 ≤ n ∧ n ≤ s.length ∧ dist m base = ((n : Nat) : Int)) →
    ∃ b, RulerState.order1Loop s base ms = some b := by
  intro ms
  induction ms with
  | nil => exact fun _ => ⟨true, rfl⟩
  | cons m ms ih =>
    intro h
    obtain ⟨n, hn1, hn2, hd⟩ := h m (List.mem_cons_self m ms)
    rw [order1Loop_cons, hd, contains_range hlen hn1 hn2]
    cases hb : s.getD (n - 1) false
    · exact ih (fun m' hm' => h m' (List.mem_cons_of_mem _ hm'))
    · exact ⟨false, rfl⟩

theorem order1Loop_all_false {s : List Bool} (hlen : s.length < 2 ^ 64)
    (base : GInt) : ∀ ms : List GInt,
    (∀ m ∈ ms, ∃ n : Nat, 1 ≤ n ∧ n ≤ s.length ∧
      dist m base = ((n : Nat) : Int) ∧ s.getD (n - 1) false = false) →
    RulerState.order1Loop s base ms = some true := by
  intro ms
  induction ms with
  | nil => exact fun _ => rfl
  | cons m ms ih =>
    intro h
    obtain ⟨n, hn1, hn2, hd, hb⟩ := h m (List.mem_cons_self m ms)
    rw [order1Loop_cons, hd, contains_range hlen hn1 hn2, hb]
    exact ih (fun m' hm' => h m' (List.mem_cons_of_mem _ hm'))

theorem is_golomb_ruler_order_1_eq (s : List Bool) :
    RulerState.is_golomb_ruler_order_1 s =
      match (RulerState.to_ruler s).marks.getLast? with
      | none => none
      | some base =>
        if (RulerState.to_ruler s).marks.length ≤ 1 then some true
        else RulerState.order1Loop s base
          (RulerState.to_ruler s).marks.dropLast := rfl

theorem interior_dist_range {s : List Bool} {m : GInt}
    (hm : m ∈ RulerState.interiorMarks 0 s) :
    ∃ n : Nat, 1 ≤ n ∧ n ≤ s.length ∧
      dist m ((s.length : Int) + 1) = ((n : Nat) : Int) ∧ n = s.length - (m - 1).toNat := by
  rw [RulerState.mem_interiorMarks] at hm
  obtain ⟨j, hj, hget, hmj⟩ := hm
  refine ⟨s.length - j, by omega, by omega, ?_, ?_⟩
  · show |m - ((s.length : Int) + 1)| = ((s.length - j : Nat) : Int)
    rw [hmj]
    have hnp : ((0 : Nat) : Int) + (j : Int) + 1 - ((s.length : Int) + 1) ≤
        (0 : Int) := by
      push_cast
      omega
    rw [abs_of_nonpos hnp]
    push_cast [Nat.cast_sub (le_of_lt hj)]
    ring
  · rw [hmj]
    have hmt : (((0 : Nat) : Int) + (j : Int) + 1 - 1).toNat = j := by
      push_cast
      omega
    rw [hmt]

theorem order1_total {s : List Bool} (hlen : s.length < 2 ^ 64) :
    ∃ b, RulerState.is_golomb_ruler_order_1 s = some b := by
  rw [is_golomb_ruler_order_1_eq, RulerState.to_ruler_marks,
    List.getLast?_concat]
  show ∃ b,
    (if (RulerState.interiorMarks 0 s ++ [((s.length : Int) + 1)]).length ≤ 1
      then some true
      else RulerState.order1Loop s ((s.length : Int) + 1)
        (RulerState.interiorMarks 0 s ++
          [((s.length : Int) + 1)]).dropLast) = some b
  by_cases hshort :
      (RulerState.interiorMarks 0 s ++ [((s.length : Int) + 1)]).length ≤ 1
  · rw [if_pos hshort]
    exact ⟨true, rfl⟩
  · rw [if_neg hshort, List.dropLast_concat]
    refine order1Loop_total hlen _ _ ?_
    intro m hm
    obtain ⟨n, hn1, hn2, hd, _⟩ := interior_dist_range hm
    exact ⟨n, hn1, hn2, hd⟩

theorem dist_mem_pairDists (b : GInt) : ∀ (l : List GInt) (a : GInt),
    a ∈ l → dist a b ∈ pairDists (l ++ [b]) := by
  intro l
  induction l with
  | nil =>
    intro a ha
    cases ha
  | cons x xs ih =>
    intro a ha
    show dist a b ∈ ((xs ++ [b]).map (dist x) ++ pairDists (xs ++ [b]))
    rcases List.mem_cons.mp ha with rfl | ha
    · exact List.mem_append_left _ (List.mem_map_of_mem _
        (List.mem_append_right _ (List.mem_singleton_self b)))
    · exact List.mem_append_right _ (ih a ha)

theorem golomb_imp_pass {s : List Bool} (hlen : s.length < 2 ^ 64)
    (hg : (RulerState.to_ruler s).is_golomb_ruler = true) :
    RulerState.is_golomb_ruler_order_1 s = some true := by
  have hnd : ((RulerState.to_ruler s).marks ++
      pairDists (RulerState.to_ruler s).marks).Nodup := by
    have h1 := (is_golomb_ruler_iff_nodup_codeList
      (RulerState.to_ruler s).marks).mp hg
    exact (List.Perm.nodup_iff (codeList_perm _)).mp h1
  have hdisj : ∀ a ∈ (RulerState.to_ruler s).marks,
      a ∉ pairDists (RulerState.to_ruler s).marks :=
    (List.nodup_append.mp hnd).2.2
  rw [is_golomb_ruler_order_1_eq, RulerState.to_ruler_marks,
    List.getLast?_concat]
  show (if (RulerState.interiorMarks 0 s ++
        [((s.length : Int) + 1)]).length ≤ 1
      then some true
      else RulerState.order1Loop s ((s.length : Int) + 1)
        (RulerState.interiorMarks 0 s ++
          [((s.length : Int) + 1)]).dropLast) = some true
  by_cases hshort :
      (RulerState.interiorMarks 0 s ++ [((s.length : Int) + 1)]).length ≤ 1
  · rw [if_pos hshort]
  · rw [if_neg hshort, List.dropLast_concat]
    refine order1Loop_all_false hlen _ _ ?_
    intro m hm
    obtain ⟨n, hn1, hn2, hd, hnj⟩ := interior_dist_range hm
    refine ⟨n, hn1, hn2, hd, ?_⟩
    by_contra hbit
    rw [Bool.not_eq_false] at hbit
    have hmem : ((n : Nat) : Int) ∈ RulerState.interiorMarks 0 s := by
      rw [RulerState.mem_interiorMarks]
      refine ⟨n - 1, by omega, hbit, ?_⟩
      push_cast [Nat.cast_sub hn1]
      ring
    have hmarks : ((n : Nat) : Int) ∈ (RulerState.to_ruler s).marks := by
      rw [RulerState.to_ruler_marks]
      exact List.mem_append_left _ hmem
    have hpair : ((n : Nat) : Int) ∈
        pairDists (RulerState.to_ruler s).marks := by
      rw [RulerState.to_ruler_marks, ← hd]
      exact dist_mem_pairDists _ _ m hm
    exact hdisj _ hmarks hpair

/-! ## Characterization of the depth-limited runner -/

theorem kvalsAbove_filter_nil {L k x : Nat} {p : Nat → Bool}
    (hnone : ∀ v, x < v → v < 2 ^ L → cnt v = k → p v = false) :
    (kvalsAbove L k x).filter p = [] := by
  rw [List.filter_eq_nil_iff]
  intro v hv
  unfold kvalsAbove at hv
  rw [List.mem_filter, List.mem_range] at hv
  obtain ⟨hvr, hc⟩ := hv
  simp only [Bool.and_eq_true, decide_eq_true_eq] at hc
  rw [hnone v hc.1 hvr hc.2]
  simp

theorem kvalsAbove_filter_cons {L k x w : Nat} {p : Nat → Bool} (hxw : x < w)
    (hw : w < 2 ^ L) (hck : cnt w = k) (hp : p w = true)
    (hmin : ∀ v, x < v → v < w → cnt v = k → p v = false) :
    (kvalsAbove L k x).filter p = w :: (kvalsAbove L k w).filter p := by
  unfold kvalsAbove
  rw [List.filter_filter, List.filter_filter]
  show (List.range (2 ^ L)).filter
      (fun v => p v && (decide (x < v) && decide (cnt v = k))) =
    w :: (List.range (2 ^ L)).filter
      (fun v => p v && (decide (w < v) && decide (cnt v = k)))
  have hsplit : List.range (2 ^ L) =
      (List.range' 0 w ++ [w]) ++ List.range' (w + 1) (2 ^ L - (w + 1)) := by
    rw [List.range_eq_range']
    have h1 : List.range' 0 w ++ [w] = List.range' 0 (w + 1) := by
      rw [List.range'_concat]
      simp
    rw [h1]
    obtain ⟨X, hX⟩ : ∃ X, 2 ^ L - (w + 1) = X := ⟨_, rfl⟩
    rw [hX]
    have h2 := List.range'_append 0 (w + 1) X 1
    simp only [Nat.zero_add, Nat.one_mul] at h2
    rw [show (2 : Nat) ^ L = X + (w + 1) by omega]
    exact h2.symm
  rw [hsplit]
  simp only [List.filter_append]
  have hlow : ∀ (q : Nat → Bool), (∀ v, v < w → q v = false) →
      (List.range' 0 w).filter q = [] := by
    intro q hq
    rw [List.filter_eq_nil_iff]
    intro a ha
    rw [List.mem_range'_1] at ha
    rw [hq a (by omega)]
    simp
  rw [hlow (fun v => p v && (decide (x < v) && decide (cnt v = k)))
    (fun v hv => by
      show (p v && (decide (x < v) && decide (cnt v = k))) = false
      by_cases hxv : x < v
      · by_cases hcv : cnt v = k
        · rw [hmin v hxv hv hcv]
          simp
        · simp [hcv]
      · simp [hxv])]
  rw [hlow (fun v => p v && (decide (w < v) && decide (cnt v = k)))
    (fun v hv => by
      show (p v && (decide (w < v) && decide (cnt v = k))) = false
      simp [show ¬(w < v) by omega])]
  have hsingle : [w].filter
      (fun v => p v && (decide (x < v) && decide (cnt v = k))) = [w] := by
    simp [hxw, hck, hp]
  have hsingle2 : [w].filter
      (fun v => p v && (decide (w < v) && decide (cnt v = k))) = [] := by
    simp
  rw [hsingle, hsingle2]
  have hcong : (List.range' (w + 1) (2 ^ L - (w + 1))).filter
      (fun v => p v && (decide (x < v) && decide (cnt v = k))) =
      (List.range' (w + 1) (2 ^ L - (w + 1))).filter
      (fun v => p v && (decide (w < v) && decide (cnt v = k))) := by
    apply List.filter_congr
    intro v hv
    rw [List.mem_range'_1] at hv
    have hx : x < v := by omega
    have hw2 : w < v := by omega
    simp [hx, hw2]
  rw [hcong]
  simp

theorem kvals_filter_head {L k x w : Nat} {p : Nat → Bool} {ws : List Nat}
    (hfk : (kvalsAbove L k x).filter p = w :: ws) :
    x < w ∧ w < 2 ^ L ∧ cnt w = k ∧ p w = true ∧
      ws = (kvalsAbove L k w).filter p := by
  have hwin : w ∈ (kvalsAbove L k x).filter p := by
    rw [hfk]
    exact List.mem_cons_self w ws
  have hwk : w ∈ kvalsAbove L k x := List.mem_of_mem_filter hwin
  have hpw : p w = true := List.of_mem_filter hwin
  have hwk' : x < w ∧ w < 2 ^ L ∧ cnt w = k := by
    unfold kvalsAbove at hwk
    rw [List.mem_filter, List.mem_range] at hwk
    obtain ⟨h1, h2⟩ := hwk
    simp only [Bool.and_eq_true, decide_eq_true_eq] at h2
    exact ⟨h2.1, h1, h2.2⟩
  obtain ⟨hxw, hw2, hck⟩ := hwk'
  have hsorted : ((kvalsAbove L k x).filter p).Pairwise (· < ·) := by
    unfold kvalsAbove
    exact ((List.pairwise_lt_range _).filter _).filter _
  have hmin : ∀ v, x < v → v < w → cnt v = k → p v = false := by
    intro v hxv hvw hcv
    by_contra hpv
    rw [Bool.not_eq_false] at hpv
    have hvin : v ∈ (kvalsAbove L k x).filter p := by
      rw [List.mem_filter]
      refine ⟨?_, hpv⟩
      unfold kvalsAbove
      rw [List.mem_filter, List.mem_range]
      exact ⟨by omega, by simp [hxv, hcv]⟩
    rw [hfk] at hvin
    rcases List.mem_cons.mp hvin with rfl | hvin
    · omega
    · rw [hfk] at hsorted
      have := (List.sorted_cons.mp hsorted).1 v hvin
      omega
  have hfc := kvalsAbove_filter_cons hxw hw2 hck hpw hmin
  rw [hfk] at hfc
  injection hfc with h1 h2
  exact ⟨hxw, hw2, hck, hpw, h2⟩

theorem depth1Loop_succ (order length fuel : Nat) (s : List Bool) :
    RulerState.depth1Loop order length (fuel + 1) s =
      match RulerState.is_golomb_ruler_order_1 s with
      | none => none
      | some true => some s
      | some false =>
        match RulerState.next_pruned s order length with
        | none => none
        | some t => RulerState.depth1Loop order length fuel t := rfl

theorem depth1Loop_spec {order length : Nat} (h2 : 2 ≤ order) (hl : 2 ≤ length)
    (h64 : length < 2 ^ 64) :
    ∀ fuel (t : List Bool), t.length = length - 1 →
      2 ^ (length - 1) - val t ≤ fuel →
      RulerState.depth1Loop order length fuel t =
        match (val t :: kvalsAbove (length - 1) (order - 2) (val t)).filter
            (passB (length - 1)) with
        | [] => none
        | w :: _ => some (stateOfVal (length - 1) w) := by
  intro fuel
  induction fuel with
  | zero =>
    intro t ht hf
    have := val_lt t
    rw [ht] at this
    omega
  | succ fuel ih =>
    intro t ht hf
    rw [depth1Loop_succ]
    obtain ⟨b, hb⟩ := order1_total (show t.length < 2 ^ 64 by omega)
    have hsv : stateOfVal (length - 1) (val t) = t := by
      have h := stateOfVal_val t
      rw [ht] at h
      exact h
    have hpv : passB (length - 1) (val t) = b := by
      unfold passB
      rw [hsv, hb]
      cases b <;> simp
    cases b with
    | true =>
      rw [hb]
      show some t = _
      rw [List.filter_cons, hpv, if_pos rfl]
      show some t = some (stateOfVal (length - 1) (val t))
      rw [hsv]
    | false =>
      rw [hb]
      show (match RulerState.next_pruned t order length with
        | none => none
        | some u => RulerState.depth1Loop order length fuel u) = _
      rw [List.filter_cons, hpv, if_neg (by simp)]
      rw [RulerState.next_pruned_at_length ht hl]
      have h1 : 1 ≤ t.length := by omega
      have hfb : 2 ^ t.length - val t ≤ 2 ^ (length - 1) := by
        rw [ht]
        exact Nat.sub_le _ _
      obtain ⟨hspec_some, hspec_none⟩ :=
        RulerState.proposeLoop_spec h2 (2 ^ (length - 1)) t h1 hfb
      cases hres : RulerState.proposeLoop order (2 ^ (length - 1)) t with
      | none =>
        have hnone := hspec_none hres
        rw [ht] at hnone
        rw [kvalsAbove_nil hnone]
        rfl
      | some u =>
        obtain ⟨hlenu, hltu, hcntu, hgapu⟩ := hspec_some u hres
        have hwlt : val u < 2 ^ (length - 1) := by
          have h := val_lt u
          rw [hlenu, ht] at h
          exact h
        rw [kvalsAbove_cons hltu hwlt hcntu hgapu]
        show RulerState.depth1Loop order length fuel u = _
        have hlent : u.length = length - 1 := by rw [hlenu, ht]
        exact ih u hlent (by omega)

theorem next_golomb_depth_1_at_length {order length : Nat} {s : List Bool}
    (h2 : 2 ≤ order) (hl : 2 ≤ length) (h64 : length < 2 ^ 64)
    (hs : s.length = length - 1) :
    RulerState.next_golomb_depth_1 s order length =
      match (kvalsAbove (length - 1) (order - 2) (val s)).filter
          (passB (length - 1)) with
      | [] => none
      | w :: _ => some (stateOfVal (length - 1) w) := by
  unfold RulerState.next_golomb_depth_1
  rw [RulerState.next_pruned_at_length hs hl]
  have h1 : 1 ≤ s.length := by omega
  have hfb : 2 ^ s.length - val s ≤ 2 ^ (length - 1) := by
    rw [hs]
    exact Nat.sub_le _ _
  obtain ⟨hspec_some, hspec_none⟩ :=
    RulerState.proposeLoop_spec h2 (2 ^ (length - 1)) s h1 hfb
  cases hres : RulerState.proposeLoop order (2 ^ (length - 1)) s with
  | none =>
    have hnone := hspec_none hres
    rw [hs] at hnone
    rw [kvalsAbove_nil hnone]
    rfl
  | some t =>
    obtain ⟨hlen, hlt, hcnt, hgap⟩ := hspec_some t hres
    have hwlt : val t < 2 ^ (length - 1) := by
      have h := val_lt t
      rw [hlen, hs] at h
      exact h
    rw [kvalsAbove_cons hlt hwlt hcnt hgap]
    show RulerState.depth1Loop order length (2 ^ (length - 1)) t = _
    rw [depth1Loop_spec h2 hl h64 (2 ^ (length - 1)) t (by rw [hlen, hs])
      (Nat.sub_le _ _)]

theorem next_golomb_depth_1_pre {order length : Nat} (h2 : 2 ≤ order)
    (hl : 2 ≤ length) (h64 : length < 2 ^ 64) :
    RulerState.next_golomb_depth_1 (List.replicate (length - 2) false) order
        length =
      match (kvalsAbove (length - 1) (order - 2) 0).filter
          (passB (length - 1)) with
      | [] => none
      | w :: _ => some (stateOfVal (length - 1) w) := by
  unfold RulerState.next_golomb_depth_1
  rw [RulerState.next_pruned_pre hl]
  set s₀ : List Bool := List.replicate (length - 1) false with hs₀
  have hlen₀ : s₀.length = length - 1 := by simp [hs₀]
  have hval₀ : val s₀ = 0 := val_replicate_false _
  have h1 : 1 ≤ s₀.length := by rw [hlen₀]; omega
  have hfb : 2 ^ s₀.length - val s₀ ≤ 2 ^ (length - 1) := by
    rw [hlen₀]
    exact Nat.sub_le _ _
  obtain ⟨hspec_some, hspec_none⟩ :=
    RulerState.proposeLoop_spec h2 (2 ^ (length - 1)) s₀ h1 hfb
  cases hres : RulerState.proposeLoop order (2 ^ (length - 1)) s₀ with
  | none =>
    have hnone := hspec_none hres
    rw [hlen₀, hval₀] at hnone
    rw [kvalsAbove_nil hnone]
    rfl
  | some t =>
    obtain ⟨hlen, hlt, hcnt, hgap⟩ := hspec_some t hres
    rw [hval₀] at hlt hgap
    have hwlt : val t < 2 ^ (length - 1) := by
      have h := val_lt t
      rw [hlen, hlen₀] at h
      exact h
    rw [kvalsAbove_cons hlt hwlt hcnt hgap]
    show RulerState.depth1Loop order length (2 ^ (length - 1)) t = _
    rw [depth1Loop_spec h2 hl h64 (2 ^ (length - 1)) t (by rw [hlen, hlen₀])
      (Nat.sub_le _ _)]

theorem runDepth_succ (order length fuel : Nat) (s : List Bool) :
    runDepth order length (fuel + 1) s =
      match RulerState.next_golomb_depth_1 s order length with
      | none => []
      | some t => t :: runDepth order length fuel t := rfl

theorem runDepth_eq {order length : Nat} (h2 : 2 ≤ order) (hl : 2 ≤ length)
    (h64 : length < 2 ^ 64) :
    ∀ n fuel (s : List Bool), s.length = length - 1 →
      2 ^ (length - 1) - val s ≤ n → n < fuel →
      runDepth order length fuel s =
        ((kvalsAbove (length - 1) (order - 2) (val s)).filter
          (passB (length - 1))).map (stateOfVal (length - 1)) := by
  intro n
  induction n with
  | zero =>
    intro fuel s hs hn _
    have := val_lt s
    rw [hs] at this
    omega
  | succ n ih =>
    intro fuel s hs hn hfuel
    obtain ⟨f, rfl⟩ : ∃ f, fuel = f + 1 := ⟨fuel - 1, by omega⟩
    rw [runDepth_succ, next_golomb_depth_1_at_length h2 hl h64 hs]
    cases hfk : (kvalsAbove (length - 1) (order - 2) (val s)).filter
        (passB (length - 1)) with
    | nil => rfl
    | cons w ws =>
      obtain ⟨hxw, hw2, hck, hpw, hws⟩ := kvals_filter_head hfk
      show stateOfVal (length - 1) w :: runDepth order length f
          (stateOfVal (length - 1) w) = _
      have hlw : (stateOfVal (length - 1) w).length = length - 1 :=
        length_stateOfVal _ _
      have hvw : val (stateOfVal (length - 1) w) = w := val_stateOfVal hw2
      rw [List.map_cons]
      congr 1
      rw [ih f (stateOfVal (length - 1) w) hlw (by omega) (by omega), hvw, hws]

theorem runDepth_from_pre {order length : Nat} (h2 : 2 ≤ order)
    (hl : 2 ≤ length) (h64 : length < 2 ^ 64) :
    runDepth order length (2 ^ length) (List.replicate (length - 2) false) =
      ((kvalsAbove (length - 1) (order - 2) 0).filter
        (passB (length - 1))).map (stateOfVal (length - 1)) := by
  obtain ⟨f, hf⟩ : ∃ f, 2 ^ length = f + 1 :=
    ⟨2 ^ length - 1, (Nat.succ_pred_eq_of_pos (Nat.two_pow_pos length)).symm⟩
  rw [hf, runDepth_succ, next_golomb_depth_1_pre h2 hl h64]
  cases hfk : (kvalsAbove (length - 1) (order - 2) 0).filter
      (passB (length - 1)) with
  | nil => rfl
  | cons w ws =>
    obtain ⟨hxw, hw2, hck, hpw, hws⟩ := kvals_filter_head hfk
    show stateOfVal (length - 1) w :: runDepth order length f
        (stateOfVal (length - 1) w) = _
    have hlw : (stateOfVal (length - 1) w).length = length - 1 :=
      length_stateOfVal _ _
    have hvw : val (stateOfVal (length - 1) w) = w := val_stateOfVal hw2
    rw [List.map_cons]
    congr 1
    have hpow : 2 ^ (length - 1) ≤ f := by
      have hiden : (2 : Nat) ^ length = 2 ^ (length - 1) * 2 := by
        rw [← pow_succ]
        congr 1
        omega
      have := Nat.two_pow_pos (length - 1)
      omega
    rw [runDepth_eq h2 hl h64 (2 ^ (length - 1) - w) f
      (stateOfVal (length - 1) w) hlw (by omega) (by omega), hvw, hws]

/-- C5: every ruler emitted by the cardinality-pruned traversal that
satisfies the full Golomb property is also emitted by the depth-limited
traversal with the same parameters — the depth-1 partial check (no distance
from the final mark colliding with a position of the state, 0, or the
length) is a necessary condition for the full Golomb property. -/
theorem claim_C5 (order length : Nat) (h2 : 2 ≤ order) (hl : 2 ≤ length)
    (h64 : length < 2 ^ 64) :
    ((runPruned order length (2 ^ length)
        (List.replicate (length - 2) false)).map
          RulerState.to_ruler).filter (fun r => r.is_golomb_ruler) ⊆
      (runDepth order length (2 ^ length)
        (List.replicate (length - 2) false)).map RulerState.to_ruler := by
  intro r hr
  rw [List.mem_filter] at hr
  obtain ⟨hrp, hrg⟩ := hr
  rw [runPruned_from_pre h2 hl] at hrp
  rw [runDepth_from_pre h2 hl h64]
  simp only [List.map_map, List.mem_map, Function.comp_apply] at hrp ⊢
  obtain ⟨v, hv, hvr⟩ := hrp
  refine ⟨v, ?_, hvr⟩
  rw [List.mem_filter]
  refine ⟨hv, ?_⟩
  unfold passB
  rw [decide_eq_true_eq]
  apply golomb_imp_pass
  · rw [length_stateOfVal]
    omega
  · rw [hvr]
    exact hrg

theorem claim_C5_witness :
    (2 ≤ 3 ∧ 2 ≤ 4 ∧ 4 < 2 ^ 64) ∧
      ((runPruned 3 4 (2 ^ 4) (List.replicate (4 - 2) false)).map
          RulerState.to_ruler).filter (fun r => r.is_golomb_ruler) ⊆
        (runDepth 3 4 (2 ^ 4) (List.replicate (4 - 2) false)).map
          RulerState.to_ruler :=
  ⟨⟨by norm_num, by norm_num, by norm_num⟩,
    claim_C5 3 4 (by norm_num) (by norm_num) (by norm_num)⟩

end Ogr
